import Mathlib

/-!
Verification of the query-node segment registry
(`internal/querynodev2/segments/manager.go`).

The registry keeps two association tables (growing and sealed segments),
admits segments through a versioned `Put`, looks them up through filtered
iteration with optional type / id-set fast paths, pins matches with
per-segment read locks, and removes entries by id, by filter, or wholesale.

The embedding below translates the Go code into pure Lean functions.
Go maps become association lists (key / segment pairs); the in-place
mutation of a segment's version becomes value replacement; calls with
side effects (release, read-lock) return the event lists explicitly.
Sequential semantics are used throughout: a compare-and-swap observed by
no concurrent writer always succeeds on the first attempt.
-/

namespace SegMgr

/-- Segment type (`commonpb.SegmentState` as used by the manager):
the manager only distinguishes `Growing`, `Sealed`, and "anything else",
whose zero value is `SegmentStateNone`. -/
inductive SegmentType where
  | stateNone
  | growing
  | sealedSeg
deriving DecidableEq, Repr

/-- Segment level (`datapb.SegmentLevel`). -/
inductive SegmentLevel where
  | l0
  | l1
  | l2
deriving DecidableEq, Repr

/-- Release scope: `ReleaseScopeAll` (default for `Release()`) or
`ReleaseScopeData` (used by the disk-cache finalizer). -/
inductive ReleaseScope where
  | scopeAll
  | scopeData
deriving DecidableEq, Repr

/-- `querypb.DataScope`: the zero value `UnKnown` plus the three scopes
the `Remove` switch handles. -/
inductive DataScope where
  | unKnown
  | scopeStreaming
  | scopeHistorical
  | scopeEverything
deriving DecidableEq, Repr

/-- The attributes of a `Segment` consumed by the manager.  `rlockErr`
models the behaviour of `RLock()`: `none` means the lock is granted,
`some e` means `RLock` returns error code `e`. -/
structure Segment where
  id : Int
  segType : SegmentType
  version : Int
  collection : Int
  partition : Int
  shard : String
  level : SegmentLevel
  insertCount : Int
  rlockErr : Option Nat
deriving DecidableEq, Repr

/-! ### Association-list operations standing in for the Go maps -/

/-- Lookup by key, mirroring `m[id]`. -/
def lookupId : List (Int × Segment) → Int → Option Segment
  | [], _ => none
  | p :: rest, i => if p.1 = i then some p.2 else lookupId rest i

/-- Insertion / replacement, mirroring `m[id] = s`. -/
def insertId : List (Int × Segment) → Int → Segment → List (Int × Segment)
  | [], i, s => [(i, s)]
  | p :: rest, i, s => if p.1 = i then (i, s) :: rest else p :: insertId rest i s

/-- Deletion, mirroring `delete(m, id)`. -/
def eraseId : List (Int × Segment) → Int → List (Int × Segment)
  | [], _ => []
  | p :: rest, i => if p.1 = i then eraseId rest i else p :: eraseId rest i

/-- The two tables owned by `segmentManager`. -/
structure RegState where
  growing : List (Int × Segment)
  sealedM : List (Int × Segment)
deriving DecidableEq, Repr

/-- The freshly constructed manager: both tables empty. -/
def emptyReg : RegState := ⟨[], []⟩

/-- Table selection by segment type (`SegmentStateNone` selects nothing). -/
def mapOf (st : RegState) : SegmentType → List (Int × Segment)
  | .growing => st.growing
  | .sealedSeg => st.sealedM
  | .stateNone => []

/-- The segment type other than the given one. -/
def otherType : SegmentType → SegmentType
  | .growing => .sealedSeg
  | .sealedSeg => .growing
  | .stateNone => .stateNone

/-! ### Segment actions -/

/-- `IncreaseVersion(version)`: the sequential meaning of the CAS loop in
the source.  Reads the current version; if it is below the target the CAS
succeeds and the version becomes exactly the target, otherwise the loop is
never entered and the action reports failure without touching the segment.
The `Bool` is the action's return value; the `Segment` is the (possibly
updated) segment. -/
def IncreaseVersion (version : Int) (s : Segment) : Bool × Segment :=
  if s.version < version then (true, { s with version := version }) else (false, s)

/-! ### Filters -/

/-- The concrete `SegmentFilter` values the manager constructs:
`WithID`, `WithType`, `WithPartition`, `WithChannel`, `WithLevel`,
`WithSkipEmpty`, and arbitrary `SegmentFilterFunc` predicates. -/
inductive SegmentFilter where
  | withId (id : Int)
  | withType (ty : SegmentType)
  | withPartition (p : Int)
  | withChannel (c : String)
  | withLevel (l : SegmentLevel)
  | withSkipEmpty
  | withPredicate (f : Segment → Bool)

/-- `Filter(segment)` of each filter. -/
def filterPred : SegmentFilter → Segment → Bool
  | .withId i, s => s.id == i
  | .withType t, s => s.segType == t
  | .withPartition p, s => s.partition == p
  | .withChannel c, s => s.shard == c
  | .withLevel l, s => s.level == l
  | .withSkipEmpty, s => s.insertCount > 0
  | .withPredicate f, s => f s

/-- `SegmentType()` hint: only `SegmentTypeFilter` reports one. -/
def typeHint : SegmentFilter → Option SegmentType
  | .withType t => some t
  | _ => none

/-- `SegmentIDs()` hint: only `SegmentIDFilter` reports one. -/
def idsHint : SegmentFilter → Option (List Int)
  | .withId i => some [i]
  | _ => none

/-- The free function `filter(segment, filters...)`: conjunction of all
filter predicates. -/
def filterAll (filters : List SegmentFilter) (s : Segment) : Bool :=
  filters.all fun f => filterPred f s

/-! ### Hint extraction (`rangeWithFilter` preamble) -/

/-- Accumulator of the hint-extraction loop at the top of
`rangeWithFilter`. -/
structure HintState where
  segType : SegmentType
  hasSegType : Bool
  hasSegIDs : Bool
  segmentIDs : List Int
  otherFilters : List SegmentFilter

/-- Set insertion used for `segmentIDs.Insert(segIDs...)`: appends each id
not already present. -/
def insertIdSet (ids : List Int) (newIds : List Int) : List Int :=
  newIds.foldl (fun acc i => if acc.contains i then acc else acc ++ [i]) ids

/-- The zero-valued accumulator the Go loop starts from. -/
def initHints : HintState := ⟨.stateNone, false, false, [], []⟩

/-- The hint-extraction loop: a type hint overwrites `segType`, an id hint
adds to the id set, anything else is kept as a residual filter. -/
def extractHints : List SegmentFilter → HintState → HintState
  | [], h => h
  | f :: rest, h =>
    match typeHint f with
    | some t => extractHints rest { h with segType := t, hasSegType := true }
    | none =>
      match idsHint f with
      | some ids =>
          extractHints rest { h with hasSegIDs := true, segmentIDs := insertIdSet h.segmentIDs ids }
      | none => extractHints rest { h with otherFilters := h.otherFilters ++ [f] }

/-! ### Filtered iteration -/

/-- Scan of one candidate table: residual filter first, then the visitor;
a `false` from the visitor breaks out of this table only. -/
def runEntries {A : Type} (mf : Segment → Bool) (ty : SegmentType)
    (process : A → Int → SegmentType → Segment → A × Bool) :
    List (Int × Segment) → A → A
  | [], acc => acc
  | p :: rest, acc =>
    if mf p.2 then
      if (process acc p.1 ty p.2).2 then
        runEntries mf ty process rest (process acc p.1 ty p.2).1
      else (process acc p.1 ty p.2).1
    else runEntries mf ty process rest acc

/-- Per-id lookups replacing the scan when an id-set hint is present. -/
def runIds {A : Type} (mf : Segment → Bool) (ty : SegmentType)
    (process : A → Int → SegmentType → Segment → A × Bool)
    (entries : List (Int × Segment)) : List Int → A → A
  | [], acc => acc
  | i :: rest, acc =>
    match lookupId entries i with
    | some s =>
      if mf s then
        if (process acc i ty s).2 then
          runIds mf ty process entries rest (process acc i ty s).1
        else (process acc i ty s).1
      else runIds mf ty process entries rest acc
    | none => runIds mf ty process entries rest acc

/-- Merged residual filter built by `rangeWithFilter`. -/
def mergedOf (h : HintState) (s : Segment) : Bool :=
  h.otherFilters.all fun f => filterPred f s

/-- Candidate-table selection of `rangeWithFilter`: a type hint narrows
the scan to one table (an unhandled hinted type leaves no candidate);
without a type hint both tables are visited. -/
def candidatesOf (st : RegState) (h : HintState) :
    List (SegmentType × List (Int × Segment)) :=
  match h.segType with
  | .sealedSeg => [(.sealedSeg, st.sealedM)]
  | .growing => [(.growing, st.growing)]
  | .stateNone =>
    if h.hasSegType then []
    else [(.sealedSeg, st.sealedM), (.growing, st.growing)]

/-- The candidate walk of `rangeWithFilter` for already-extracted hints. -/
def rangeCore {A : Type} (st : RegState) (h : HintState)
    (process : A → Int → SegmentType → Segment → A × Bool) (acc : A) : A :=
  (candidatesOf st h).foldl
    (fun a c =>
      if h.hasSegIDs then runIds (mergedOf h) c.1 process c.2 h.segmentIDs a
      else runEntries (mergedOf h) c.1 process c.2 a)
    acc

/-- `rangeWithFilter(process, filters...)`: extracts the hints, then walks
the candidate tables, by per-id lookups when an id-set hint is present and
by a full scan otherwise. -/
def rangeWithFilter {A : Type} (st : RegState)
    (process : A → Int → SegmentType → Segment → A × Bool)
    (filters : List SegmentFilter) (acc : A) : A :=
  rangeCore st (extractHints filters initHints) process acc

/-! ### Write operations -/

/-- Result of `Put`: the new state, the segments released inline with
their scope (version-regressive arrivals, released with scope All), and
the replaced segments collected for deferred release. -/
structure PutResult where
  st : RegState
  releasedNow : List (Segment × ReleaseScope)
  deferredRelease : List Segment
deriving DecidableEq, Repr

/-- The per-segment loop body of `Put` over one target table. -/
def putLoop : List Segment → List (Int × Segment) →
    List (Int × Segment) × List (Segment × ReleaseScope) × List Segment
  | [], target => (target, [], [])
  | s :: rest, target =>
    match lookupId target s.id with
    | some old =>
      if old.version ≥ s.version then
        let r := putLoop rest target
        (r.1, (s, .scopeAll) :: r.2.1, r.2.2)
      else
        let r := putLoop rest (insertId target s.id s)
        (r.1, r.2.1, old :: r.2.2)
    | none => putLoop rest (insertId target s.id s)

/-- `Put(segmentType, segments...)`.  `none` models the panic on an
unexpected segment type. -/
def Put (st : RegState) (ty : SegmentType) (segs : List Segment) : Option PutResult :=
  match ty with
  | .growing =>
    let r := putLoop segs st.growing
    some ⟨{ st with growing := r.1 }, r.2.1, r.2.2⟩
  | .sealedSeg =>
    let r := putLoop segs st.sealedM
    some ⟨{ st with sealedM := r.1 }, r.2.1, r.2.2⟩
  | .stateNone => none

/-- `removeSegmentWithType(typ, segmentID)`: deletes and returns the entry
if present; an unhandled type removes nothing. -/
def removeSegmentWithType (st : RegState) (ty : SegmentType) (id : Int) :
    Option Segment × RegState :=
  match ty with
  | .growing =>
    match lookupId st.growing id with
    | some s => (some s, { st with growing := eraseId st.growing id })
    | none => (none, st)
  | .sealedSeg =>
    match lookupId st.sealedM id with
    | some s => (some s, { st with sealedM := eraseId st.sealedM id })
    | none => (none, st)
  | .stateNone => (none, st)

/-- Result of `Remove`: the two returned counters, the new state, and the
segments released (scope All) after the lock is dropped. -/
structure RemoveResult where
  removedGrowing : Nat
  removedSealed : Nat
  st : RegState
  released : List Segment
deriving DecidableEq, Repr

/-- `Remove(segmentID, scope)`. -/
def Remove (st : RegState) (id : Int) (scope : DataScope) : RemoveResult :=
  match scope with
  | .scopeStreaming =>
    let r := removeSegmentWithType st .growing id
    ⟨if r.1.isSome then 1 else 0, 0, r.2, r.1.toList⟩
  | .scopeHistorical =>
    let r := removeSegmentWithType st .sealedSeg id
    ⟨0, if r.1.isSome then 1 else 0, r.2, r.1.toList⟩
  | .scopeEverything =>
    let rg := removeSegmentWithType st .growing id
    let rs := removeSegmentWithType rg.2 .sealedSeg id
    ⟨if rg.1.isSome then 1 else 0, if rs.1.isSome then 1 else 0, rs.2,
      rg.1.toList ++ rs.1.toList⟩
  | .unKnown => ⟨0, 0, st, []⟩

/-- Accumulator of `RemoveBy`. -/
structure RemoveByAcc where
  st : RegState
  removedGrowing : Nat
  removedSealed : Nat
  removedSegs : List Segment

/-- Visitor of `RemoveBy`: removes the visited entry from its table and
counts it. -/
def removeByStep (acc : RemoveByAcc) (id : Int) (ty : SegmentType) (_ : Segment) :
    RemoveByAcc × Bool :=
  let r := removeSegmentWithType acc.st ty id
  match r.1 with
  | some s =>
    (⟨r.2,
      acc.removedGrowing + (if ty = .growing then 1 else 0),
      acc.removedSealed + (if ty = .sealedSeg then 1 else 0),
      acc.removedSegs ++ [s]⟩, true)
  | none => (⟨r.2, acc.removedGrowing, acc.removedSealed, acc.removedSegs⟩, true)

/-- `RemoveBy(filters...)`. -/
def RemoveBy (st : RegState) (filters : List SegmentFilter) : RemoveByAcc :=
  rangeWithFilter st removeByStep filters ⟨st, 0, 0, []⟩

/-- `Clear()`: empties both tables; every stored segment is released. -/
def Clear (st : RegState) : RegState × List Segment :=
  (emptyReg, st.growing.map Prod.snd ++ st.sealedM.map Prod.snd)

/-- Accumulator of `UpdateBy`. -/
structure UpdateAcc where
  st : RegState
  updated : Nat

/-- Visitor of `UpdateBy`: applies the action to the visited segment.  The
Go action mutates the segment in place through a shared pointer; in value
semantics the table entry is replaced by the updated segment. -/
def updateStep (action : Segment → Bool × Segment) (acc : UpdateAcc)
    (id : Int) (ty : SegmentType) (s : Segment) : UpdateAcc × Bool :=
  let r := action s
  let st' : RegState :=
    match ty with
    | .growing => { acc.st with growing := insertId acc.st.growing id r.2 }
    | .sealedSeg => { acc.st with sealedM := insertId acc.st.sealedM id r.2 }
    | .stateNone => acc.st
  (⟨st', acc.updated + (if r.1 then 1 else 0)⟩, true)

/-- `UpdateBy(action, filters...)`. -/
def UpdateBy (st : RegState) (action : Segment → Bool × Segment)
    (filters : List SegmentFilter) : UpdateAcc :=
  rangeWithFilter st (updateStep action) filters ⟨st, 0⟩

/-! ### Read operations -/

/-- Visitor of `GetBy`: collect every visited segment, never break. -/
def getByStep (acc : List Segment) (_ : Int) (_ : SegmentType) (s : Segment) :
    List Segment × Bool :=
  (acc ++ [s], true)

/-- `GetBy(filters...)`: collects every visited segment. -/
def GetBy (st : RegState) (filters : List SegmentFilter) : List Segment :=
  rangeWithFilter st getByStep filters []

/-- Accumulator of `GetAndPinBy`: the `ret` slice, the shared `err`
variable, and the trace of successful `RLock` acquisitions. -/
structure PinByAcc where
  ret : List Segment
  err : Option Nat
  locked : List Segment

/-- Visitor of `GetAndPinBy`: skips L0 segments, otherwise assigns
`err = segment.RLock()` (overwriting any previous value) and on success
appends the segment to `ret`. -/
def pinByStep (acc : PinByAcc) (_ : Int) (_ : SegmentType) (s : Segment) :
    PinByAcc × Bool :=
  if s.level = .l0 then (acc, true)
  else
    match s.rlockErr with
    | some e => (⟨acc.ret, some e, acc.locked⟩, false)
    | none => (⟨acc.ret ++ [s], none, acc.locked ++ [s]⟩, true)

/-- What `GetAndPinBy` hands back: the returned slice and error, plus the
traces of read locks acquired and of read locks released by the deferred
cleanup before returning. -/
structure PinByResult where
  ret : List Segment
  err : Option Nat
  locked : List Segment
  unlocked : List Segment
deriving DecidableEq, Repr

/-- `GetAndPinBy(filters...)`.  The deferred cleanup unlocks everything in
`ret` when the `err` variable is non-nil at exit; the function itself
always returns `(ret, nil)` (source line `return ret, nil`). -/
def GetAndPinBy (st : RegState) (filters : List SegmentFilter) : PinByResult :=
  let acc := rangeWithFilter st pinByStep filters ⟨[], none, []⟩
  ⟨acc.ret, none, acc.locked, if acc.err.isSome then acc.ret else []⟩

/-- Errors surfaced by `GetAndPin`. -/
inductive PinErr where
  | rlockFailed (e : Nat)
  | segmentNotLoaded (id : Int)
deriving DecidableEq, Repr

/-- The per-id loop of `GetAndPin`: an L0 sealed hit skips the id; then
each of the growing / sealed hits passing every filter is read-locked; an
id with neither hit yields `SegmentNotLoaded`.  Returns the terminating
error (if any) and the list of segments locked so far. -/
def getAndPinLoop (st : RegState) (filters : List SegmentFilter) :
    List Int → List Segment → Option PinErr × List Segment
  | [], acc => (none, acc)
  | i :: rest, acc =>
    let sealedOpt := lookupId st.sealedM i
    if (match sealedOpt with | some s => s.level == SegmentLevel.l0 | none => false) then
      getAndPinLoop st filters rest acc
    else
      let gOpt := (lookupId st.growing i).filter (filterAll filters)
      let sOpt := sealedOpt.filter (filterAll filters)
      match gOpt with
      | some g =>
        match g.rlockErr with
        | some e => (some (.rlockFailed e), acc)
        | none =>
          match sOpt with
          | some s =>
            match s.rlockErr with
            | some e => (some (.rlockFailed e), acc ++ [g])
            | none => getAndPinLoop st filters rest (acc ++ [g, s])
          | none => getAndPinLoop st filters rest (acc ++ [g])
      | none =>
        match sOpt with
        | some s =>
          match s.rlockErr with
          | some e => (some (.rlockFailed e), acc)
          | none => getAndPinLoop st filters rest (acc ++ [s])
        | none => (some (.segmentNotLoaded i), acc)

/-- What `GetAndPin` hands back: result, lock trace, deferred-unlock
trace. -/
structure GetAndPinResult where
  result : Except PinErr (List Segment)
  locked : List Segment
  unlocked : List Segment

/-- `GetAndPin(segments, filters...)`: on error the deferred cleanup
unlocks every acquired lock and the error is returned. -/
def GetAndPin (st : RegState) (ids : List Int) (filters : List SegmentFilter) :
    GetAndPinResult :=
  match getAndPinLoop st filters ids [] with
  | (some e, lockedSegs) => ⟨.error e, lockedSegs, lockedSegs⟩
  | (none, lockedSegs) => ⟨.ok lockedSegs, lockedSegs, []⟩

/-! ### Operation sequences -/

/-- The registry mutations a client can issue (with `UpdateBy`
instantiated at `IncreaseVersion`, the canonical action). -/
inductive RegOp where
  | putOp (ty : SegmentType) (segs : List Segment)
  | removeOp (id : Int) (scope : DataScope)
  | removeByOp (filters : List SegmentFilter)
  | clearOp
  | updateByOp (version : Int) (filters : List SegmentFilter)

/-- State transition of one operation (a `Put` of an invalid type panics
and changes nothing). -/
def applyOp (st : RegState) : RegOp → RegState
  | .putOp ty segs =>
    match Put st ty segs with
    | some r => r.st
    | none => st
  | .removeOp id scope => (Remove st id scope).st
  | .removeByOp fs => (RemoveBy st fs).st
  | .clearOp => (Clear st).1
  | .updateByOp v fs => (UpdateBy st (IncreaseVersion v) fs).st

/-- Running a sequence of operations from the empty registry. -/
def runOps (ops : List RegOp) : RegState := ops.foldl applyOp emptyReg

end SegMgr


namespace SegMgr

/-! ### Association-list lemmas -/

theorem lookupId_insertId_self (m : List (Int × Segment)) (i : Int) (s : Segment) :
    lookupId (insertId m i s) i = some s := by
  induction m with
  | nil => simp [insertId, lookupId]
  | cons p rest ih =>
    by_cases hp : p.1 = i
    · simp [insertId, if_pos hp, lookupId]
    · simp only [insertId, if_neg hp, lookupId, if_neg hp]
      exact ih

theorem lookupId_insertId_ne (m : List (Int × Segment)) (i j : Int) (s : Segment)
    (h : j ≠ i) : lookupId (insertId m i s) j = lookupId m j := by
  induction m with
  | nil => simp [insertId, lookupId, Ne.symm h]
  | cons p rest ih =>
    by_cases hp : p.1 = i
    · have hpj : p.1 ≠ j := by rw [hp]; exact Ne.symm h
      simp only [insertId, if_pos hp, lookupId]
      rw [if_neg (Ne.symm h), if_neg hpj]
    · simp only [insertId, if_neg hp, lookupId]
      by_cases hq : p.1 = j
      · rw [if_pos hq, if_pos hq]
      · rw [if_neg hq, if_neg hq]
        exact ih

theorem isSome_lookupId_insertId (m : List (Int × Segment)) (i j : Int) (s : Segment)
    (h : (lookupId (insertId m i s) j).isSome) :
    j = i ∨ (lookupId m j).isSome := by
  by_cases hj : j = i
  · exact Or.inl hj
  · right; rwa [lookupId_insertId_ne m i j s hj] at h

theorem lookupId_eraseId_self (m : List (Int × Segment)) (i : Int) :
    lookupId (eraseId m i) i = none := by
  induction m with
  | nil => rfl
  | cons p rest ih =>
    by_cases hp : p.1 = i
    · simpa [eraseId, if_pos hp] using ih
    · simp only [eraseId, if_neg hp, lookupId, if_neg hp]
      exact ih

theorem lookupId_eraseId_ne (m : List (Int × Segment)) (i j : Int)
    (h : j ≠ i) : lookupId (eraseId m i) j = lookupId m j := by
  induction m with
  | nil => rfl
  | cons p rest ih =>
    by_cases hp : p.1 = i
    · have hpj : p.1 ≠ j := fun hh => h (hh ▸ hp)
      simp only [eraseId, if_pos hp, lookupId, if_neg hpj]
      exact ih
    · simp only [eraseId, if_neg hp, lookupId]
      by_cases hq : p.1 = j
      · rw [if_pos hq, if_pos hq]
      · rw [if_neg hq, if_neg hq]
        exact ih

theorem lookupId_eraseId_some (m : List (Int × Segment)) (i j : Int) (v : Segment)
    (h : lookupId (eraseId m i) j = some v) : lookupId m j = some v := by
  by_cases hj : j = i
  · rw [hj, lookupId_eraseId_self] at h; cases h
  · rwa [lookupId_eraseId_ne m i j hj] at h

theorem eraseId_eq_of_lookup_none (m : List (Int × Segment)) (i : Int)
    (h : lookupId m i = none) : eraseId m i = m := by
  induction m with
  | nil => rfl
  | cons p rest ih =>
    by_cases hp : p.1 = i
    · rw [lookupId, if_pos hp] at h; cases h
    · rw [lookupId, if_neg hp] at h
      rw [eraseId, if_neg hp, ih h]

theorem mem_of_lookupId_eq_some (m : List (Int × Segment)) (i : Int) (s : Segment)
    (h : lookupId m i = some s) : (i, s) ∈ m := by
  induction m with
  | nil => cases h
  | cons p rest ih =>
    by_cases hp : p.1 = i
    · rw [lookupId, if_pos hp] at h
      injection h with h2
      have hps : p = (i, s) := by
        cases p with
        | mk a b =>
          simp only at hp h2
          rw [hp, h2]
      rw [← hps]
      exact List.mem_cons_self _ _
    · rw [lookupId, if_neg hp] at h
      exact List.mem_cons_of_mem _ (ih h)

theorem lookupId_isSome_of_mem (m : List (Int × Segment)) (i : Int) (s : Segment)
    (h : (i, s) ∈ m) : (lookupId m i).isSome := by
  induction m with
  | nil => cases h
  | cons p rest ih =>
    rcases List.mem_cons.mp h with heq | hmem
    · rw [lookupId, ← heq]
      simp
    · by_cases hp : p.1 = i
      · simp [lookupId, if_pos hp]
      · rw [lookupId, if_neg hp]
        exact ih hmem

/-! ### Well-formedness of a registry state -/

/-- No key occurs twice in a table. -/
def nodupKeys (m : List (Int × Segment)) : Prop := (m.map Prod.fst).Nodup

/-- Every stored segment's id equals its key (the tables are only ever
written at `segment.ID()`). -/
def keyAgree (m : List (Int × Segment)) : Prop := ∀ p ∈ m, p.2.id = p.1

/-- Key discipline of both tables. -/
def wfReg (st : RegState) : Prop :=
  nodupKeys st.growing ∧ nodupKeys st.sealedM ∧ keyAgree st.growing ∧ keyAgree st.sealedM

/-- The type-agreement invariant: every stored segment's `Type()` matches
its table. -/
def typeAgreeReg (st : RegState) : Prop :=
  (∀ p ∈ st.growing, p.2.segType = SegmentType.growing) ∧
  (∀ p ∈ st.sealedM, p.2.segType = SegmentType.sealedSeg)

theorem lookupId_eq_of_mem_nodup (m : List (Int × Segment)) (i : Int) (s : Segment)
    (hnd : nodupKeys m) (h : (i, s) ∈ m) : lookupId m i = some s := by
  induction m with
  | nil => cases h
  | cons p rest ih =>
    rw [nodupKeys, List.map_cons, List.nodup_cons] at hnd
    rcases List.mem_cons.mp h with heq | hmem
    · rw [lookupId, ← heq]
      simp
    · have hne : p.1 ≠ i := by
        intro hpi
        exact hnd.1 (hpi ▸ List.mem_map.mpr ⟨(i, s), hmem, rfl⟩)
      rw [lookupId, if_neg hne]
      exact ih hnd.2 hmem

end SegMgr

namespace SegMgr

/-! ### Concrete segments used by counterexamples and witnesses -/

/-- A sealed L1 segment whose read lock is granted. -/
def segA : Segment := ⟨1, .sealedSeg, 1, 100, 10, "ch", .l1, 5, none⟩

/-- A sealed L1 segment whose read lock fails with error code 7. -/
def segBad : Segment := ⟨2, .sealedSeg, 1, 100, 10, "ch", .l1, 5, some 7⟩

/-- The L0 sealed segment of the spec's scenario 4. -/
def seg11 : Segment := ⟨11, .sealedSeg, 1, 100, 10, "ch", .l0, 5, none⟩

/-- A growing segment with id 5. -/
def segG5 : Segment := ⟨5, .growing, 1, 100, 10, "ch", .l1, 5, none⟩

/-- A sealed segment with id 5. -/
def segS5 : Segment := ⟨5, .sealedSeg, 1, 100, 10, "ch", .l1, 5, none⟩

/-! ### C7: `IncreaseVersion` -/

/-- C7.  For a segment with stored version `u`: when `u < v` the
`IncreaseVersion(v)` action returns true and the segment's version becomes
exactly `v`; when `u ≥ v` it returns false and the segment is unchanged. -/
theorem increaseVersion_spec (s : Segment) (v : Int) :
    (s.version < v → IncreaseVersion v s = (true, { s with version := v })) ∧
    (v ≤ s.version → IncreaseVersion v s = (false, s)) := by
  constructor
  · intro h
    simp [IncreaseVersion, if_pos h]
  · intro h
    simp [IncreaseVersion, if_neg (not_lt.mpr h)]

/-- Witness for C7 at concrete inputs. -/
theorem increaseVersion_spec_witness :
    IncreaseVersion 5 segA = (true, { segA with version := 5 }) ∧
    IncreaseVersion 0 segA = (false, segA) :=
  ⟨(increaseVersion_spec segA 5).1 (by decide), (increaseVersion_spec segA 0).2 (by decide)⟩

/-! ### C10: `Remove` with an unrecognised scope -/

/-- C10.  A `Remove` whose scope is none of Streaming / Historical / All
returns `(0, 0)`, leaves both tables unchanged, and releases nothing. -/
theorem remove_unknown_scope_noop (st : RegState) (id : Int) :
    Remove st id .unKnown = ⟨0, 0, st, []⟩ := rfl

/-! ### C8: `Remove` scope / frame behaviour -/

theorem removeSWT_growing_spec (st : RegState) (id : Int) :
    (removeSegmentWithType st .growing id).2.growing = eraseId st.growing id ∧
    (removeSegmentWithType st .growing id).2.sealedM = st.sealedM ∧
    (removeSegmentWithType st .growing id).1.isSome = (lookupId st.growing id).isSome := by
  cases hg : lookupId st.growing id with
  | none =>
    have h1 : removeSegmentWithType st .growing id = (none, st) := by
      simp only [removeSegmentWithType, hg]
    rw [h1]
    exact ⟨(eraseId_eq_of_lookup_none st.growing id hg).symm, rfl, rfl⟩
  | some s =>
    have h1 : removeSegmentWithType st .growing id
        = (some s, { st with growing := eraseId st.growing id }) := by
      simp only [removeSegmentWithType, hg]
    rw [h1]
    exact ⟨rfl, rfl, rfl⟩

theorem removeSWT_sealed_spec (st : RegState) (id : Int) :
    (removeSegmentWithType st .sealedSeg id).2.sealedM = eraseId st.sealedM id ∧
    (removeSegmentWithType st .sealedSeg id).2.growing = st.growing ∧
    (removeSegmentWithType st .sealedSeg id).1.isSome = (lookupId st.sealedM id).isSome := by
  cases hg : lookupId st.sealedM id with
  | none =>
    have h1 : removeSegmentWithType st .sealedSeg id = (none, st) := by
      simp only [removeSegmentWithType, hg]
    rw [h1]
    exact ⟨(eraseId_eq_of_lookup_none st.sealedM id hg).symm, rfl, rfl⟩
  | some s =>
    have h1 : removeSegmentWithType st .sealedSeg id
        = (some s, { st with sealedM := eraseId st.sealedM id }) := by
      simp only [removeSegmentWithType, hg]
    rw [h1]
    exact ⟨rfl, rfl, rfl⟩

/-- C8.  Scope behaviour of `Remove(id, scope)`: Streaming removes at most
the growing entry and leaves the sealed table untouched, Historical the
converse, All removes both; each returned counter is 1 exactly when the
corresponding entry existed (so the pair lies in {0,1} x {0,1}); the
entry for `id` is gone from every table the scope covers; entries of every
other id are unchanged in both tables. -/
theorem remove_scope_spec (st : RegState) (id : Int) :
    ((Remove st id .scopeStreaming).st.sealedM = st.sealedM ∧
     (Remove st id .scopeStreaming).st.growing = eraseId st.growing id ∧
     lookupId (Remove st id .scopeStreaming).st.growing id = none ∧
     (Remove st id .scopeStreaming).removedGrowing
       = (if (lookupId st.growing id).isSome then 1 else 0) ∧
     (Remove st id .scopeStreaming).removedSealed = 0) ∧
    ((Remove st id .scopeHistorical).st.growing = st.growing ∧
     (Remove st id .scopeHistorical).st.sealedM = eraseId st.sealedM id ∧
     lookupId (Remove st id .scopeHistorical).st.sealedM id = none ∧
     (Remove st id .scopeHistorical).removedSealed
       = (if (lookupId st.sealedM id).isSome then 1 else 0) ∧
     (Remove st id .scopeHistorical).removedGrowing = 0) ∧
    ((Remove st id .scopeEverything).st.growing = eraseId st.growing id ∧
     (Remove st id .scopeEverything).st.sealedM = eraseId st.sealedM id ∧
     lookupId (Remove st id .scopeEverything).st.growing id = none ∧
     lookupId (Remove st id .scopeEverything).st.sealedM id = none ∧
     (Remove st id .scopeEverything).removedGrowing
       = (if (lookupId st.growing id).isSome then 1 else 0) ∧
     (Remove st id .scopeEverything).removedSealed
       = (if (lookupId st.sealedM id).isSome then 1 else 0)) ∧
    (∀ scope : DataScope, ∀ j : Int, j ≠ id →
      lookupId (Remove st id scope).st.growing j = lookupId st.growing j ∧
      lookupId (Remove st id scope).st.sealedM j = lookupId st.sealedM j) ∧
    (∀ scope : DataScope,
      (Remove st id scope).removedGrowing ≤ 1 ∧ (Remove st id scope).removedSealed ≤ 1) := by
  obtain ⟨hg1, hg2, hg3⟩ := removeSWT_growing_spec st id
  obtain ⟨hs1, hs2, hs3⟩ := removeSWT_sealed_spec st id
  obtain ⟨hg1', hg2', hg3'⟩ := removeSWT_sealed_spec (removeSegmentWithType st .growing id).2 id
  have hRs : (Remove st id .scopeStreaming).st = (removeSegmentWithType st .growing id).2 := rfl
  have hRh : (Remove st id .scopeHistorical).st = (removeSegmentWithType st .sealedSeg id).2 := rfl
  have hRa : (Remove st id .scopeEverything).st
      = (removeSegmentWithType (removeSegmentWithType st .growing id).2 .sealedSeg id).2 := rfl
  refine ⟨⟨?_, ?_, ?_, ?_, ?_⟩, ⟨?_, ?_, ?_, ?_, ?_⟩, ⟨?_, ?_, ?_, ?_, ?_, ?_⟩, ?_, ?_⟩
  · rw [hRs, hg2]
  · rw [hRs, hg1]
  · rw [hRs, hg1, lookupId_eraseId_self]
  · show (if (removeSegmentWithType st .growing id).1.isSome then 1 else 0) = _
    rw [hg3]
  · rfl
  · rw [hRh, hs2]
  · rw [hRh, hs1]
  · rw [hRh, hs1, lookupId_eraseId_self]
  · show (if (removeSegmentWithType st .sealedSeg id).1.isSome then 1 else 0) = _
    rw [hs3]
  · rfl
  · rw [hRa, hg2', hg1]
  · rw [hRa, hg1', hg2]
  · rw [hRa, hg2', hg1, lookupId_eraseId_self]
  · rw [hRa, hg1', hg2, lookupId_eraseId_self]
  · show (if (removeSegmentWithType st .growing id).1.isSome then 1 else 0) = _
    rw [hg3]
  · show (if (removeSegmentWithType (removeSegmentWithType st .growing id).2
        .sealedSeg id).1.isSome then 1 else 0) = _
    rw [hg3', hg2]
  · intro scope j hj
    cases scope with
    | unKnown => exact ⟨rfl, rfl⟩
    | scopeStreaming =>
      refine ⟨?_, ?_⟩
      · rw [hRs, hg1, lookupId_eraseId_ne _ _ _ hj]
      · rw [hRs, hg2]
    | scopeHistorical =>
      refine ⟨?_, ?_⟩
      · rw [hRh, hs2]
      · rw [hRh, hs1, lookupId_eraseId_ne _ _ _ hj]
    | scopeEverything =>
      refine ⟨?_, ?_⟩
      · rw [hRa, hg2', hg1, lookupId_eraseId_ne _ _ _ hj]
      · rw [hRa, hg1', hg2, lookupId_eraseId_ne _ _ _ hj]
  · intro scope
    cases scope with
    | unKnown => exact ⟨Nat.zero_le 1, Nat.zero_le 1⟩
    | scopeStreaming =>
      constructor
      · show (if (removeSegmentWithType st .growing id).1.isSome then 1 else 0) ≤ 1
        split <;> omega
      · exact Nat.zero_le 1
    | scopeHistorical =>
      constructor
      · exact Nat.zero_le 1
      · show (if (removeSegmentWithType st .sealedSeg id).1.isSome then 1 else 0) ≤ 1
        split <;> omega
    | scopeEverything =>
      constructor
      · show (if (removeSegmentWithType st .growing id).1.isSome then 1 else 0) ≤ 1
        split <;> omega
      · show (if (removeSegmentWithType (removeSegmentWithType st .growing id).2
            .sealedSeg id).1.isSome then 1 else 0) ≤ 1
        split <;> omega

/-- Witness for C8: a concrete state with id 5 in both tables. -/
theorem remove_scope_spec_witness :
    (Remove ⟨[(5, segG5)], [(5, segS5)]⟩ 5 .scopeStreaming).st.sealedM = [(5, segS5)] ∧
    (Remove ⟨[(5, segG5)], [(5, segS5)]⟩ 5 .scopeEverything).removedGrowing = 1 ∧
    lookupId (Remove ⟨[(5, segG5)], [(5, segS5)]⟩ 5 .scopeEverything).st.growing 7
      = lookupId ([(5, segG5)] : List (Int × Segment)) 7 := by
  refine ⟨(remove_scope_spec ⟨[(5, segG5)], [(5, segS5)]⟩ 5).1.1, ?_, ?_⟩
  · rw [(remove_scope_spec ⟨[(5, segG5)], [(5, segS5)]⟩ 5).2.2.1.2.2.2.2.1]
    decide
  · exact ((remove_scope_spec ⟨[(5, segG5)], [(5, segS5)]⟩ 5).2.2.2.1
      .scopeEverything 7 (by decide)).1

end SegMgr

namespace SegMgr

/-! ### C1: `Put` against an existing entry of the same id -/

/-- C1.  `Put(type, s)` when the target table already stores `old` under
`s.id`: if `old.version ≥ s.version` the state is unchanged and `s` itself
is released immediately with scope All; if `old.version < s.version` then
`s` replaces `old`, other entries of the target table are untouched, and
`old` is collected for deferred release.  In both cases the table of the
other segment type is unchanged. -/
theorem put_existing_version_gate (st : RegState) (ty : SegmentType) (s old : Segment)
    (res : PutResult) (hty : ty = .growing ∨ ty = .sealedSeg)
    (hold : lookupId (mapOf st ty) s.id = some old)
    (hres : Put st ty [s] = some res) :
    (old.version ≥ s.version →
      res.st = st ∧ res.releasedNow = [(s, .scopeAll)] ∧ res.deferredRelease = []) ∧
    (old.version < s.version →
      lookupId (mapOf res.st ty) s.id = some s ∧
      (∀ j, j ≠ s.id → lookupId (mapOf res.st ty) j = lookupId (mapOf st ty) j) ∧
      res.releasedNow = [] ∧ res.deferredRelease = [old]) ∧
    mapOf res.st (otherType ty) = mapOf st (otherType ty) := by
  rcases hty with h | h <;> subst h
  · simp only [mapOf] at hold
    by_cases hv : old.version ≥ s.version
    · have hput : Put st .growing [s] = some ⟨st, [(s, .scopeAll)], []⟩ := by
        simp only [Put, putLoop, hold, if_pos hv]
      rw [hput] at hres
      injection hres with hres
      subst hres
      refine ⟨fun _ => ⟨rfl, rfl, rfl⟩, fun hlt => absurd hlt (not_lt.mpr hv), rfl⟩
    · have hput : Put st .growing [s]
          = some ⟨{ st with growing := insertId st.growing s.id s }, [], [old]⟩ := by
        simp only [Put, putLoop, hold, if_neg hv]
      rw [hput] at hres
      injection hres with hres
      subst hres
      refine ⟨fun hge => absurd hge hv, fun _ => ⟨?_, ?_, rfl, rfl⟩, rfl⟩
      · exact lookupId_insertId_self st.growing s.id s
      · intro j hj
        exact lookupId_insertId_ne st.growing s.id j s hj
  · simp only [mapOf] at hold
    by_cases hv : old.version ≥ s.version
    · have hput : Put st .sealedSeg [s] = some ⟨st, [(s, .scopeAll)], []⟩ := by
        simp only [Put, putLoop, hold, if_pos hv]
      rw [hput] at hres
      injection hres with hres
      subst hres
      refine ⟨fun _ => ⟨rfl, rfl, rfl⟩, fun hlt => absurd hlt (not_lt.mpr hv), rfl⟩
    · have hput : Put st .sealedSeg [s]
          = some ⟨{ st with sealedM := insertId st.sealedM s.id s }, [], [old]⟩ := by
        simp only [Put, putLoop, hold, if_neg hv]
      rw [hput] at hres
      injection hres with hres
      subst hres
      refine ⟨fun hge => absurd hge hv, fun _ => ⟨?_, ?_, rfl, rfl⟩, rfl⟩
      · exact lookupId_insertId_self st.sealedM s.id s
      · intro j hj
        exact lookupId_insertId_ne st.sealedM s.id j s hj

/-- Witness for C1: replacing version 1 by version 9, and rejecting
version 0, over a concrete one-entry sealed table. -/
theorem put_existing_version_gate_witness :
    (Put ⟨[], [(1, segA)]⟩ .sealedSeg [{ segA with version := 0 }]
        = some ⟨⟨[], [(1, segA)]⟩, [({ segA with version := 0 }, .scopeAll)], []⟩) ∧
    lookupId (mapOf ⟨[], [(1, segA)]⟩ .sealedSeg) ({ segA with version := 0 } : Segment).id
        = some segA := by
  have h := put_existing_version_gate ⟨[], [(1, segA)]⟩ .sealedSeg
    { segA with version := 0 } segA
    ⟨⟨[], [(1, segA)]⟩, [({ segA with version := 0 }, .scopeAll)], []⟩
    (Or.inr rfl) (by decide) (by decide)
  have h2 := (h.1 (by decide)).2.1
  constructor
  · rw [show Put ⟨[], [(1, segA)]⟩ .sealedSeg [{ segA with version := 0 }]
        = some ⟨⟨[], [(1, segA)]⟩, [({ segA with version := 0 }, .scopeAll)], []⟩ from by decide]
  · decide

/-! ### C2: `GetAndPinBy` swallows the `RLock` error -/

/-- The registry state of the C2 failing input: two sealed L1 segments,
id 1 lockable, id 2 whose `RLock` fails. -/
def stPin : RegState := ⟨[], [(1, segA), (2, segBad)]⟩

/-- C2 (failing input).  `segBad` matches the filters and its `RLock`
fails, yet the call hands back a nil error together with the
already-unlocked remainder: the previously acquired lock on `segA` is
released by the deferred cleanup, but the returned error is `none`
instead of the lock error, contradicting the claim that the error is
surfaced.  (The source returns `ret, nil` unconditionally.) -/
theorem getAndPinBy_swallows_rlock_error :
    filterAll [SegmentFilter.withType .sealedSeg] segBad = true ∧
    segBad.rlockErr = some 7 ∧
    GetAndPinBy stPin [.withType .sealedSeg]
      = ⟨[segA], none, [segA], [segA]⟩ :=
  ⟨rfl, rfl, rfl⟩

/-! ### C3: L0 sealed segments and the pinning entry points -/

/-- The registry state after `Put(Sealed, {id=11, level=L0})` on an empty
registry. -/
def st11 : RegState :=
  match Put emptyReg .sealedSeg [seg11] with
  | some r => r.st
  | none => emptyReg

/-- C3 (counterexample).  `GetAndPin([11])` on the L0-only registry does
NOT return the SegmentNotLoaded error: the id is skipped and the call
succeeds with an empty result. -/
theorem getAndPin_l0_no_error_cex :
    (GetAndPin st11 [11] []).result = Except.ok [] ∧
    (GetAndPin st11 [11] []).result ≠ Except.error (PinErr.segmentNotLoaded 11) := by
  have h : (GetAndPin st11 [11] []).result = Except.ok [] := rfl
  exact ⟨h, by rw [h]; exact fun hh => Except.noConfusion hh⟩

/-- C3 (amended).  After `Put(Sealed, {id=11, level=L0})` into an empty
registry, `GetAndPin([11])` returns an empty list with no error and pins
nothing, and `GetAndPinBy(WithType(Sealed))` returns an empty list with
no error and pins nothing. -/
theorem l0_pin_behaviour_amended :
    (GetAndPin st11 [11] []).result = Except.ok [] ∧
    (GetAndPin st11 [11] []).locked = [] ∧
    (GetAndPin st11 [11] []).unlocked = [] ∧
    GetAndPinBy st11 [.withType .sealedSeg] = ⟨[], none, [], []⟩ :=
  ⟨rfl, rfl, rfl, rfl⟩

/-! ### C9: an L0 sealed hit makes `GetAndPin` skip the id entirely -/

theorem getAndPinLoop_skip (st : RegState) (filters : List SegmentFilter)
    (i : Int) (s : Segment) (hs : lookupId st.sealedM i = some s)
    (hl : s.level = .l0) (ids1 ids2 : List Int) (acc : List Segment) :
    getAndPinLoop st filters (ids1 ++ i :: ids2) acc
      = getAndPinLoop st filters (ids1 ++ ids2) acc := by
  induction ids1 generalizing acc with
  | nil =>
    have hcond : (match lookupId st.sealedM i with
        | some s => s.level == SegmentLevel.l0
        | none => false) = true := by
      rw [hs]
      show (s.level == SegmentLevel.l0) = true
      rw [hl]
      rfl
    show getAndPinLoop st filters (i :: ids2) acc = getAndPinLoop st filters ids2 acc
    rw [getAndPinLoop]
    simp only [hcond, if_true]
  | cons a rest ih =>
    show getAndPinLoop st filters (a :: (rest ++ i :: ids2)) acc
      = getAndPinLoop st filters (a :: (rest ++ ids2)) acc
    rw [getAndPinLoop, getAndPinLoop]
    by_cases hc : (match lookupId st.sealedM a with
        | some s2 => s2.level == SegmentLevel.l0
        | none => false) = true
    · simp only [hc, if_true]
      exact ih acc
    · simp only [Bool.not_eq_true] at hc
      simp only [hc, Bool.false_eq_true, if_false]
      split
      next g hg =>
        split
        next e he => rfl
        next he =>
          split
          next s2 hs2 =>
            split
            next e2 he2 => rfl
            next he2 => exact ih (acc ++ [g, s2])
          next hs2 => exact ih (acc ++ [g])
      next hg =>
        split
        next s2 hs2 =>
          split
          next e he => rfl
          next he => exact ih (acc ++ [s2])
        next hs2 => rfl

/-- C9.  When the sealed table stores an L0 segment under a requested id,
`GetAndPin` behaves exactly as if that id had not been requested: the id
contributes no lock, no result entry, and no error — in particular the
L0 hit alone suppresses the SegmentNotLoaded error, and a growing segment
of the same id is not consulted. -/
theorem getAndPin_skips_l0_id (st : RegState) (filters : List SegmentFilter)
    (i : Int) (s : Segment) (hs : lookupId st.sealedM i = some s)
    (hl : s.level = .l0) (ids1 ids2 : List Int) :
    GetAndPin st (ids1 ++ i :: ids2) filters = GetAndPin st (ids1 ++ ids2) filters := by
  unfold GetAndPin
  rw [getAndPinLoop_skip st filters i s hs hl ids1 ids2 []]

/-- Witness for C9: the sealed table holds an L0 segment under id 11 and
the growing table a lockable segment under the same id; requesting [11]
yields the same empty success as requesting []. -/
theorem getAndPin_skips_l0_id_witness :
    GetAndPin ⟨[(11, { segA with id := 11 })], [(11, seg11)]⟩ ([] ++ 11 :: []) []
      = GetAndPin ⟨[(11, { segA with id := 11 })], [(11, seg11)]⟩ ([] ++ []) [] :=
  getAndPin_skips_l0_id ⟨[(11, { segA with id := 11 })], [(11, seg11)]⟩ []
    11 seg11 (by decide) (by decide) [] []

end SegMgr

namespace SegMgr

/-! ### Invariant preservation through the filtered iteration -/

theorem runEntries_inv {A : Type} (P : A → Prop) (mf : Segment → Bool) (ty : SegmentType)
    (process : A → Int → SegmentType → Segment → A × Bool)
    (entries : List (Int × Segment)) (acc : A)
    (hstep : ∀ a i s, (i, s) ∈ entries → mf s = true → P a → P (process a i ty s).1)
    (h0 : P acc) : P (runEntries mf ty process entries acc) := by
  induction entries generalizing acc with
  | nil => exact h0
  | cons p rest ih =>
    have hstep2 : ∀ a i s, (i, s) ∈ rest → mf s = true → P a → P (process a i ty s).1 :=
      fun a i s hm => hstep a i s (List.mem_cons_of_mem _ hm)
    rw [runEntries]
    by_cases hmf : mf p.2 = true
    · rw [if_pos hmf]
      have hmem : (p.1, p.2) ∈ p :: rest := by
        rw [Prod.mk.eta]
        exact List.mem_cons_self _ _
      have hp : P (process acc p.1 ty p.2).1 := hstep acc p.1 p.2 hmem hmf h0
      by_cases hcont : (process acc p.1 ty p.2).2 = true
      · rw [if_pos hcont]
        exact ih _ hstep2 hp
      · rw [if_neg hcont]
        exact hp
    · rw [if_neg hmf]
      exact ih _ hstep2 h0

theorem runIds_inv {A : Type} (P : A → Prop) (mf : Segment → Bool) (ty : SegmentType)
    (process : A → Int → SegmentType → Segment → A × Bool)
    (entries : List (Int × Segment)) (ids : List Int) (acc : A)
    (hstep : ∀ a i s, lookupId entries i = some s → mf s = true → P a → P (process a i ty s).1)
    (h0 : P acc) : P (runIds mf ty process entries ids acc) := by
  induction ids generalizing acc with
  | nil => exact h0
  | cons i rest ih =>
    rw [runIds]
    split
    next s hl =>
      by_cases hmf : mf s = true
      · rw [if_pos hmf]
        have hp : P (process acc i ty s).1 := hstep acc i s hl hmf h0
        by_cases hcont : (process acc i ty s).2 = true
        · rw [if_pos hcont]
          exact ih _ hp
        · rw [if_neg hcont]
          exact hp
      · rw [if_neg hmf]
        exact ih _ h0
    next hl => exact ih _ h0

theorem candidatesOf_mem {st : RegState} {h : HintState} {c : SegmentType × List (Int × Segment)}
    (hc : c ∈ candidatesOf st h) :
    c = (.sealedSeg, st.sealedM) ∨ c = (.growing, st.growing) := by
  unfold candidatesOf at hc
  cases hty : h.segType <;> rw [hty] at hc
  · by_cases hst : h.hasSegType = true
    · rw [if_pos hst] at hc
      cases hc
    · rw [if_neg hst] at hc
      rcases List.mem_cons.mp hc with h1 | h2
      · exact Or.inl h1
      · rcases List.mem_cons.mp h2 with h3 | h4
        · exact Or.inr h3
        · cases h4
  · rcases List.mem_cons.mp hc with h1 | h2
    · exact Or.inr h1
    · cases h2
  · rcases List.mem_cons.mp hc with h1 | h2
    · exact Or.inl h1
    · cases h2

theorem rangeCore_inv {A : Type} (P : A → Prop) (st : RegState) (h : HintState)
    (process : A → Int → SegmentType → Segment → A × Bool) (acc : A)
    (hstep : ∀ a i ty s,
      ((ty = .sealedSeg ∧ (i, s) ∈ st.sealedM) ∨ (ty = .growing ∧ (i, s) ∈ st.growing)) →
      P a → P (process a i ty s).1)
    (h0 : P acc) : P (rangeCore st h process acc) := by
  unfold rangeCore
  have hgen : ∀ (cs : List (SegmentType × List (Int × Segment))),
      (∀ c ∈ cs, c = (.sealedSeg, st.sealedM) ∨ c = (.growing, st.growing)) →
      ∀ a, P a → P (cs.foldl
        (fun a c =>
          if h.hasSegIDs then runIds (mergedOf h) c.1 process c.2 h.segmentIDs a
          else runEntries (mergedOf h) c.1 process c.2 a) a) := by
    intro cs
    induction cs with
    | nil => intro _ a pa; exact pa
    | cons c rest ih =>
      intro hmem a pa
      rw [List.foldl_cons]
      refine ih (fun d hd => hmem d (List.mem_cons_of_mem _ hd)) _ ?_
      have hc := hmem c (List.mem_cons_self _ _)
      have hone : P (if h.hasSegIDs then runIds (mergedOf h) c.1 process c.2 h.segmentIDs a
          else runEntries (mergedOf h) c.1 process c.2 a) := by
        by_cases hids : h.hasSegIDs = true
        · rw [if_pos hids]
          refine runIds_inv P (mergedOf h) c.1 process c.2 h.segmentIDs a ?_ pa
          intro a2 i s hl _ pa2
          rcases hc with h1 | h1 <;> rw [h1] at hl ⊢
          · exact hstep a2 i .sealedSeg s (Or.inl ⟨rfl, mem_of_lookupId_eq_some _ _ _ hl⟩) pa2
          · exact hstep a2 i .growing s (Or.inr ⟨rfl, mem_of_lookupId_eq_some _ _ _ hl⟩) pa2
        · rw [if_neg hids]
          refine runEntries_inv P (mergedOf h) c.1 process c.2 a ?_ pa
          intro a2 i s hm _ pa2
          rcases hc with h1 | h1 <;> rw [h1] at hm ⊢
          · exact hstep a2 i .sealedSeg s (Or.inl ⟨rfl, hm⟩) pa2
          · exact hstep a2 i .growing s (Or.inr ⟨rfl, hm⟩) pa2
      exact hone
  exact hgen (candidatesOf st h) (fun c hc => candidatesOf_mem hc) acc h0

theorem rangeWithFilter_inv {A : Type} (P : A → Prop) (st : RegState)
    (process : A → Int → SegmentType → Segment → A × Bool)
    (filters : List SegmentFilter) (acc : A)
    (hstep : ∀ a i ty s,
      ((ty = .sealedSeg ∧ (i, s) ∈ st.sealedM) ∨ (ty = .growing ∧ (i, s) ∈ st.growing)) →
      P a → P (process a i ty s).1)
    (h0 : P acc) : P (rangeWithFilter st process filters acc) :=
  rangeCore_inv P st (extractHints filters initHints) process acc hstep h0

end SegMgr

namespace SegMgr

/-! ### C4: exclusivity of the two tables -/

/-- One operation `Put`s a segment of the given id under the given type. -/
def putsId : RegOp → SegmentType → Int → Prop
  | .putOp ty2 segs, ty, id => ty2 = ty ∧ id ∈ segs.map Segment.id
  | _, _, _ => False

theorem putLoop_lookup_isSome (segs : List Segment) (target : List (Int × Segment))
    (j : Int) (h : (lookupId (putLoop segs target).1 j).isSome = true) :
    (lookupId target j).isSome = true ∨ j ∈ segs.map Segment.id := by
  induction segs generalizing target with
  | nil => exact Or.inl h
  | cons s rest ih =>
    rw [putLoop] at h
    split at h
    next old hold =>
      by_cases hv : old.version ≥ s.version
      · rw [if_pos hv] at h
        have h2 : (lookupId (putLoop rest target).1 j).isSome = true := h
        rcases ih target h2 with h1 | h1
        · exact Or.inl h1
        · rw [List.map_cons]
          exact Or.inr (List.mem_cons_of_mem _ h1)
      · rw [if_neg hv] at h
        have h2 : (lookupId (putLoop rest (insertId target s.id s)).1 j).isSome = true := h
        rcases ih (insertId target s.id s) h2 with h1 | h1
        · rcases isSome_lookupId_insertId target s.id j s h1 with hj | hsome
          · rw [List.map_cons, hj]
            exact Or.inr (List.mem_cons_self _ _)
          · exact Or.inl hsome
        · rw [List.map_cons]
          exact Or.inr (List.mem_cons_of_mem _ h1)
    next hold =>
      have h2 : (lookupId (putLoop rest (insertId target s.id s)).1 j).isSome = true := h
      rcases ih (insertId target s.id s) h2 with h1 | h1
      · rcases isSome_lookupId_insertId target s.id j s h1 with hj | hsome
        · rw [List.map_cons, hj]
          exact Or.inr (List.mem_cons_self _ _)
        · exact Or.inl hsome
      · rw [List.map_cons]
        exact Or.inr (List.mem_cons_of_mem _ h1)

theorem removeByStep_st (a : RemoveByAcc) (i : Int) (ty : SegmentType) (s : Segment) :
    (removeByStep a i ty s).1.st = (removeSegmentWithType a.st ty i).2 := by
  simp only [removeByStep]
  split <;> rfl

theorem removeSWT_growing_lookup (m : RegState) (ty : SegmentType) (i j : Int) (v : Segment)
    (h : lookupId (removeSegmentWithType m ty i).2.growing j = some v) :
    lookupId m.growing j = some v := by
  cases ty with
  | growing =>
    rw [(removeSWT_growing_spec m i).1] at h
    exact lookupId_eraseId_some m.growing i j v h
  | sealedSeg => rwa [(removeSWT_sealed_spec m i).2.1] at h
  | stateNone => exact h

theorem removeSWT_sealed_lookup (m : RegState) (ty : SegmentType) (i j : Int) (v : Segment)
    (h : lookupId (removeSegmentWithType m ty i).2.sealedM j = some v) :
    lookupId m.sealedM j = some v := by
  cases ty with
  | growing => rwa [(removeSWT_growing_spec m i).2.1] at h
  | sealedSeg =>
    rw [(removeSWT_sealed_spec m i).1] at h
    exact lookupId_eraseId_some m.sealedM i j v h
  | stateNone => exact h

theorem applyOp_growing_isSome (st : RegState) (op : RegOp) (j : Int)
    (h : (lookupId (applyOp st op).growing j).isSome = true) :
    (lookupId st.growing j).isSome = true ∨ putsId op .growing j := by
  cases op with
  | putOp pty segs =>
    cases pty with
    | stateNone => exact Or.inl h
    | growing =>
      have h2 : (lookupId (putLoop segs st.growing).1 j).isSome = true := h
      rcases putLoop_lookup_isSome segs st.growing j h2 with h1 | h1
      · exact Or.inl h1
      · exact Or.inr ⟨rfl, h1⟩
    | sealedSeg => exact Or.inl h
  | removeOp id scope =>
    left
    cases scope with
    | unKnown => exact h
    | scopeStreaming =>
      obtain ⟨v, hv⟩ := Option.isSome_iff_exists.mp h
      rw [removeSWT_growing_lookup st .growing id j v hv]
      rfl
    | scopeHistorical =>
      obtain ⟨v, hv⟩ := Option.isSome_iff_exists.mp h
      rw [removeSWT_growing_lookup st .sealedSeg id j v hv]
      rfl
    | scopeEverything =>
      obtain ⟨v, hv⟩ := Option.isSome_iff_exists.mp h
      have hv2 := removeSWT_growing_lookup (removeSegmentWithType st .growing id).2 .sealedSeg id j v hv
      rw [removeSWT_growing_lookup st .growing id j v hv2]
      rfl
  | removeByOp fs =>
    left
    refine rangeWithFilter_inv
      (fun acc : RemoveByAcc =>
        (lookupId acc.st.growing j).isSome = true → (lookupId st.growing j).isSome = true)
      st removeByStep fs ⟨st, 0, 0, []⟩ ?_ (fun hh => hh) h
    intro a i ty s _ pa hh
    rw [removeByStep_st] at hh
    obtain ⟨v, hv⟩ := Option.isSome_iff_exists.mp hh
    refine pa ?_
    rw [removeSWT_growing_lookup a.st ty i j v hv]
    rfl
  | clearOp =>
    have h2 : (lookupId ([] : List (Int × Segment)) j).isSome = true := h
    simp [lookupId] at h2
  | updateByOp v fs =>
    left
    refine rangeWithFilter_inv
      (fun acc : UpdateAcc =>
        (lookupId acc.st.growing j).isSome = true → (lookupId st.growing j).isSome = true)
      st (updateStep (IncreaseVersion v)) fs ⟨st, 0⟩ ?_ (fun hh => hh) h
    intro a i ty s hmem pa hh
    rcases hmem with ⟨hty, hm⟩ | ⟨hty, hm⟩ <;> subst hty
    · exact pa hh
    · have hh2 : (lookupId (insertId a.st.growing i (IncreaseVersion v s).2) j).isSome = true := hh
      rcases isSome_lookupId_insertId a.st.growing i j _ hh2 with hj | hsome
      · rw [hj]
        exact lookupId_isSome_of_mem st.growing i s hm
      · exact pa hsome

theorem applyOp_sealed_isSome (st : RegState) (op : RegOp) (j : Int)
    (h : (lookupId (applyOp st op).sealedM j).isSome = true) :
    (lookupId st.sealedM j).isSome = true ∨ putsId op .sealedSeg j := by
  cases op with
  | putOp pty segs =>
    cases pty with
    | stateNone => exact Or.inl h
    | sealedSeg =>
      have h2 : (lookupId (putLoop segs st.sealedM).1 j).isSome = true := h
      rcases putLoop_lookup_isSome segs st.sealedM j h2 with h1 | h1
      · exact Or.inl h1
      · exact Or.inr ⟨rfl, h1⟩
    | growing => exact Or.inl h
  | removeOp id scope =>
    left
    cases scope with
    | unKnown => exact h
    | scopeStreaming =>
      obtain ⟨v, hv⟩ := Option.isSome_iff_exists.mp h
      rw [removeSWT_sealed_lookup st .growing id j v hv]
      rfl
    | scopeHistorical =>
      obtain ⟨v, hv⟩ := Option.isSome_iff_exists.mp h
      rw [removeSWT_sealed_lookup st .sealedSeg id j v hv]
      rfl
    | scopeEverything =>
      obtain ⟨v, hv⟩ := Option.isSome_iff_exists.mp h
      have hv2 := removeSWT_sealed_lookup (removeSegmentWithType st .growing id).2 .sealedSeg id j v hv
      rw [removeSWT_sealed_lookup st .growing id j v hv2]
      rfl
  | removeByOp fs =>
    left
    refine rangeWithFilter_inv
      (fun acc : RemoveByAcc =>
        (lookupId acc.st.sealedM j).isSome = true → (lookupId st.sealedM j).isSome = true)
      st removeByStep fs ⟨st, 0, 0, []⟩ ?_ (fun hh => hh) h
    intro a i ty s _ pa hh
    rw [removeByStep_st] at hh
    obtain ⟨v, hv⟩ := Option.isSome_iff_exists.mp hh
    refine pa ?_
    rw [removeSWT_sealed_lookup a.st ty i j v hv]
    rfl
  | clearOp =>
    have h2 : (lookupId ([] : List (Int × Segment)) j).isSome = true := h
    simp [lookupId] at h2
  | updateByOp v fs =>
    left
    refine rangeWithFilter_inv
      (fun acc : UpdateAcc =>
        (lookupId acc.st.sealedM j).isSome = true → (lookupId st.sealedM j).isSome = true)
      st (updateStep (IncreaseVersion v)) fs ⟨st, 0⟩ ?_ (fun hh => hh) h
    intro a i ty s hmem pa hh
    rcases hmem with ⟨hty, hm⟩ | ⟨hty, hm⟩ <;> subst hty
    · have hh2 : (lookupId (insertId a.st.sealedM i (IncreaseVersion v s).2) j).isSome = true := hh
      rcases isSome_lookupId_insertId a.st.sealedM i j _ hh2 with hj | hsome
      · rw [hj]
        exact lookupId_isSome_of_mem st.sealedM i s hm
      · exact pa hsome
    · exact pa hh

theorem foldl_growing_isSome (ops : List RegOp) :
    ∀ (st : RegState) (j : Int),
      (lookupId (ops.foldl applyOp st).growing j).isSome = true →
      (lookupId st.growing j).isSome = true ∨ ∃ op ∈ ops, putsId op .growing j := by
  induction ops with
  | nil => intro st j h; exact Or.inl h
  | cons op rest ih =>
    intro st j h
    rw [List.foldl_cons] at h
    rcases ih (applyOp st op) j h with h1 | h1
    · rcases applyOp_growing_isSome st op j h1 with h2 | h2
      · exact Or.inl h2
      · exact Or.inr ⟨op, List.mem_cons_self _ _, h2⟩
    · obtain ⟨op2, hmem, hput⟩ := h1
      exact Or.inr ⟨op2, List.mem_cons_of_mem _ hmem, hput⟩

theorem foldl_sealed_isSome (ops : List RegOp) :
    ∀ (st : RegState) (j : Int),
      (lookupId (ops.foldl applyOp st).sealedM j).isSome = true →
      (lookupId st.sealedM j).isSome = true ∨ ∃ op ∈ ops, putsId op .sealedSeg j := by
  induction ops with
  | nil => intro st j h; exact Or.inl h
  | cons op rest ih =>
    intro st j h
    rw [List.foldl_cons] at h
    rcases ih (applyOp st op) j h with h1 | h1
    · rcases applyOp_sealed_isSome st op j h1 with h2 | h2
      · exact Or.inl h2
      · exact Or.inr ⟨op, List.mem_cons_self _ _, h2⟩
    · obtain ⟨op2, hmem, hput⟩ := h1
      exact Or.inr ⟨op2, List.mem_cons_of_mem _ hmem, hput⟩

/-- C4 (counterexample).  `Put(Sealed, {id=5}); Put(Growing, {id=5})` from
the empty registry leaves id 5 stored in BOTH tables: `Put` never clears
the other table, so the exclusivity invariant fails for sequences that put
one id under both types. -/
theorem exclusivity_cex :
    (lookupId (runOps [.putOp .sealedSeg [segS5], .putOp .growing [segG5]]).growing 5).isSome
      = true ∧
    (lookupId (runOps [.putOp .sealedSeg [segS5], .putOp .growing [segG5]]).sealedM 5).isSome
      = true := ⟨rfl, rfl⟩

/-- C4 (amended).  For every operation sequence from the empty registry in
which no id is ever `Put` under both segment types, every id is stored in
at most one of the two tables. -/
theorem exclusivity_of_disjoint_puts (ops : List RegOp)
    (hdisj : ∀ id : Int,
      ¬((∃ op ∈ ops, putsId op .growing id) ∧ (∃ op ∈ ops, putsId op .sealedSeg id)))
    (id : Int) :
    ¬((lookupId (runOps ops).growing id).isSome = true ∧
      (lookupId (runOps ops).sealedM id).isSome = true) := by
  rintro ⟨hg, hs⟩
  rcases foldl_growing_isSome ops emptyReg id hg with h1 | h1
  · simp [emptyReg, lookupId] at h1
  · rcases foldl_sealed_isSome ops emptyReg id hs with h2 | h2
    · simp [emptyReg, lookupId] at h2
    · exact hdisj id ⟨h1, h2⟩

/-- Witness for C4 at a concrete sequence that only puts growing ids. -/
theorem exclusivity_of_disjoint_puts_witness :
    ¬((lookupId (runOps [.putOp .growing [segG5]]).growing 5).isSome = true ∧
      (lookupId (runOps [.putOp .growing [segG5]]).sealedM 5).isSome = true) := by
  refine exclusivity_of_disjoint_puts [.putOp .growing [segG5]] ?_ 5
  intro id hid
  obtain ⟨⟨op1, hm1, hp1⟩, ⟨op2, hm2, hp2⟩⟩ := hid
  rw [List.mem_singleton] at hm2
  subst hm2
  obtain ⟨hty, _⟩ := hp2
  cases hty

end SegMgr

namespace SegMgr

/-! ### C5: version monotonicity -/

theorem IncreaseVersion_le (v : Int) (s : Segment) :
    s.version ≤ ((IncreaseVersion v s).2).version := by
  unfold IncreaseVersion
  by_cases h : s.version < v
  · rw [if_pos h]
    exact le_of_lt h
  · rw [if_neg h]

theorem IncreaseVersion_id (v : Int) (s : Segment) :
    ((IncreaseVersion v s).2).id = s.id := by
  unfold IncreaseVersion
  by_cases h : s.version < v
  · rw [if_pos h]
  · rw [if_neg h]

theorem putLoop_version_mono (segs : List Segment) (target : List (Int × Segment))
    (j : Int) (u u2 : Segment) (hb : lookupId target j = some u)
    (ha : lookupId (putLoop segs target).1 j = some u2) : u.version ≤ u2.version := by
  induction segs generalizing target u with
  | nil =>
    rw [putLoop] at ha
    rw [hb] at ha
    injection ha with h
    rw [h]
  | cons s rest ih =>
    rw [putLoop] at ha
    split at ha
    next old hold =>
      by_cases hv : old.version ≥ s.version
      · rw [if_pos hv] at ha
        exact ih target u hb ha
      · rw [if_neg hv] at ha
        by_cases hj : j = s.id
        · have hu : u = old := by
            rw [hj] at hb
            rw [hb] at hold
            injection hold
          have hmid : lookupId (insertId target s.id s) j = some s := by
            rw [hj]
            exact lookupId_insertId_self target s.id s
          have h2 := ih (insertId target s.id s) s hmid ha
          rw [hu]
          exact le_trans (le_of_lt (not_le.mp hv)) h2
        · have hmid : lookupId (insertId target s.id s) j = some u := by
            rw [lookupId_insertId_ne target s.id j s hj]
            exact hb
          exact ih (insertId target s.id s) u hmid ha
    next hold =>
      by_cases hj : j = s.id
      · rw [← hj] at hold
        rw [hb] at hold
        cases hold
      · have hmid : lookupId (insertId target s.id s) j = some u := by
          rw [lookupId_insertId_ne target s.id j s hj]
          exact hb
        exact ih (insertId target s.id s) u hmid ha

/-! Key-uniqueness is preserved by every operation. -/

theorem mem_keys_insertId (m : List (Int × Segment)) (i j : Int) (s : Segment)
    (h : j ∈ (insertId m i s).map Prod.fst) : j ∈ m.map Prod.fst ∨ j = i := by
  induction m with
  | nil =>
    rw [show insertId [] i s = [(i, s)] from rfl] at h
    simp at h
    exact Or.inr h
  | cons p rest ih =>
    by_cases hp : p.1 = i
    · rw [show insertId (p :: rest) i s = (i, s) :: rest from by rw [insertId, if_pos hp]] at h
      rw [List.map_cons] at h
      rcases List.mem_cons.mp h with h1 | h1
      · exact Or.inr h1
      · exact Or.inl (by rw [List.map_cons]; exact List.mem_cons_of_mem _ h1)
    · rw [show insertId (p :: rest) i s = p :: insertId rest i s from by
        rw [insertId, if_neg hp]] at h
      rw [List.map_cons] at h
      rcases List.mem_cons.mp h with h1 | h1
      · exact Or.inl (by rw [List.map_cons]; exact h1 ▸ List.mem_cons_self _ _)
      · rcases ih h1 with h2 | h2
        · exact Or.inl (by rw [List.map_cons]; exact List.mem_cons_of_mem _ h2)
        · exact Or.inr h2

theorem nodupKeys_insertId (m : List (Int × Segment)) (i : Int) (s : Segment)
    (h : nodupKeys m) : nodupKeys (insertId m i s) := by
  induction m with
  | nil => simp [insertId, nodupKeys]
  | cons p rest ih =>
    rw [nodupKeys, List.map_cons, List.nodup_cons] at h
    by_cases hp : p.1 = i
    · rw [nodupKeys, show insertId (p :: rest) i s = (i, s) :: rest from by
        rw [insertId, if_pos hp], List.map_cons, List.nodup_cons]
      exact ⟨by rw [← hp]; exact h.1, h.2⟩
    · rw [nodupKeys, show insertId (p :: rest) i s = p :: insertId rest i s from by
        rw [insertId, if_neg hp], List.map_cons, List.nodup_cons]
      refine ⟨?_, ih h.2⟩
      intro hmem
      rcases mem_keys_insertId rest i p.1 s hmem with h1 | h1
      · exact h.1 h1
      · exact hp h1

theorem eraseId_sublist (m : List (Int × Segment)) (i : Int) :
    (eraseId m i).Sublist m := by
  induction m with
  | nil => exact List.Sublist.refl _
  | cons p rest ih =>
    by_cases hp : p.1 = i
    · rw [eraseId, if_pos hp]
      exact List.Sublist.cons _ ih
    · rw [eraseId, if_neg hp]
      exact List.Sublist.cons₂ _ ih

theorem nodupKeys_eraseId (m : List (Int × Segment)) (i : Int)
    (h : nodupKeys m) : nodupKeys (eraseId m i) :=
  List.Nodup.sublist (List.Sublist.map Prod.fst (eraseId_sublist m i)) h

/-- Both tables keep unique keys. -/
def nodupReg (st : RegState) : Prop := nodupKeys st.growing ∧ nodupKeys st.sealedM

theorem nodupKeys_putLoop (segs : List Segment) (target : List (Int × Segment))
    (h : nodupKeys target) : nodupKeys (putLoop segs target).1 := by
  induction segs generalizing target with
  | nil => exact h
  | cons s rest ih =>
    rw [putLoop]
    split
    next old hold =>
      by_cases hv : old.version ≥ s.version
      · rw [if_pos hv]
        exact ih target h
      · rw [if_neg hv]
        exact ih (insertId target s.id s) (nodupKeys_insertId target s.id s h)
    next hold =>
      exact ih (insertId target s.id s) (nodupKeys_insertId target s.id s h)

theorem nodupReg_removeSWT (st : RegState) (ty : SegmentType) (id : Int)
    (h : nodupReg st) : nodupReg (removeSegmentWithType st ty id).2 := by
  cases ty with
  | growing =>
    cases hg : lookupId st.growing id with
    | none =>
      have h1 : removeSegmentWithType st .growing id = (none, st) := by
        simp only [removeSegmentWithType, hg]
      rw [h1]
      exact h
    | some s =>
      have h1 : removeSegmentWithType st .growing id
          = (some s, { st with growing := eraseId st.growing id }) := by
        simp only [removeSegmentWithType, hg]
      rw [h1]
      exact ⟨nodupKeys_eraseId st.growing id h.1, h.2⟩
  | sealedSeg =>
    cases hg : lookupId st.sealedM id with
    | none =>
      have h1 : removeSegmentWithType st .sealedSeg id = (none, st) := by
        simp only [removeSegmentWithType, hg]
      rw [h1]
      exact h
    | some s =>
      have h1 : removeSegmentWithType st .sealedSeg id
          = (some s, { st with sealedM := eraseId st.sealedM id }) := by
        simp only [removeSegmentWithType, hg]
      rw [h1]
      exact ⟨h.1, nodupKeys_eraseId st.sealedM id h.2⟩
  | stateNone => exact h

theorem nodupReg_applyOp (st : RegState) (op : RegOp)
    (h : nodupReg st) : nodupReg (applyOp st op) := by
  cases op with
  | putOp pty segs =>
    cases pty with
    | stateNone => exact h
    | growing => exact ⟨nodupKeys_putLoop segs st.growing h.1, h.2⟩
    | sealedSeg => exact ⟨h.1, nodupKeys_putLoop segs st.sealedM h.2⟩
  | removeOp id scope =>
    cases scope with
    | unKnown => exact h
    | scopeStreaming => exact nodupReg_removeSWT st .growing id h
    | scopeHistorical => exact nodupReg_removeSWT st .sealedSeg id h
    | scopeEverything =>
      exact nodupReg_removeSWT _ .sealedSeg id (nodupReg_removeSWT st .growing id h)
  | removeByOp fs =>
    refine rangeWithFilter_inv (fun acc : RemoveByAcc => nodupReg acc.st)
      st removeByStep fs ⟨st, 0, 0, []⟩ ?_ h
    intro a i ty s _ pa
    rw [removeByStep_st]
    exact nodupReg_removeSWT a.st ty i pa
  | clearOp => exact ⟨List.nodup_nil, List.nodup_nil⟩
  | updateByOp v fs =>
    refine rangeWithFilter_inv (fun acc : UpdateAcc => nodupReg acc.st)
      st (updateStep (IncreaseVersion v)) fs ⟨st, 0⟩ ?_ h
    intro a i ty s hmem pa
    rcases hmem with ⟨hty, hm⟩ | ⟨hty, hm⟩ <;> subst hty
    · exact ⟨pa.1, nodupKeys_insertId a.st.sealedM i _ pa.2⟩
    · exact ⟨nodupKeys_insertId a.st.growing i _ pa.1, pa.2⟩

theorem nodupReg_runOps (ops : List RegOp) : nodupReg (runOps ops) := by
  have hgen : ∀ (st : RegState), nodupReg st → nodupReg (ops.foldl applyOp st) := by
    induction ops with
    | nil => intro st h; exact h
    | cons op rest ih =>
      intro st h
      rw [List.foldl_cons]
      exact ih _ (nodupReg_applyOp st op h)
  exact hgen emptyReg ⟨List.nodup_nil, List.nodup_nil⟩

theorem Remove_growing_lookup (st : RegState) (id : Int) (scope : DataScope) (j : Int)
    (v : Segment) (h : lookupId (Remove st id scope).st.growing j = some v) :
    lookupId st.growing j = some v := by
  cases scope with
  | unKnown => exact h
  | scopeStreaming => exact removeSWT_growing_lookup st .growing id j v h
  | scopeHistorical => exact removeSWT_growing_lookup st .sealedSeg id j v h
  | scopeEverything =>
    exact removeSWT_growing_lookup st .growing id j v
      (removeSWT_growing_lookup _ .sealedSeg id j v h)

theorem Remove_sealed_lookup (st : RegState) (id : Int) (scope : DataScope) (j : Int)
    (v : Segment) (h : lookupId (Remove st id scope).st.sealedM j = some v) :
    lookupId st.sealedM j = some v := by
  cases scope with
  | unKnown => exact h
  | scopeStreaming => exact removeSWT_sealed_lookup st .growing id j v h
  | scopeHistorical => exact removeSWT_sealed_lookup st .sealedSeg id j v h
  | scopeEverything =>
    exact removeSWT_sealed_lookup st .growing id j v
      (removeSWT_sealed_lookup _ .sealedSeg id j v h)

end SegMgr

namespace SegMgr

theorem applyOp_version_mono (st : RegState) (op : RegOp) (ty : SegmentType) (j : Int)
    (u u2 : Segment) (hnd : nodupReg st)
    (hb : lookupId (mapOf st ty) j = some u)
    (ha : lookupId (mapOf (applyOp st op) ty) j = some u2) :
    u.version ≤ u2.version := by
  cases ty with
  | stateNone => simp [mapOf, lookupId] at hb
  | growing =>
    simp only [mapOf] at hb ha
    cases op with
    | putOp pty segs =>
      cases pty with
      | stateNone =>
        have h := hb.symm.trans ha
        injection h with h
        rw [h]
      | growing =>
        have ha2 : lookupId (putLoop segs st.growing).1 j = some u2 := ha
        exact putLoop_version_mono segs st.growing j u u2 hb ha2
      | sealedSeg =>
        have h := hb.symm.trans ha
        injection h with h
        rw [h]
    | removeOp id scope =>
      have h2 := Remove_growing_lookup st id scope j u2 ha
      have h := hb.symm.trans h2
      injection h with h
      rw [h]
    | removeByOp fs =>
      have hfin : lookupId st.growing j = some u2 := by
        refine rangeWithFilter_inv
          (fun acc : RemoveByAcc =>
            ∀ w, lookupId acc.st.growing j = some w → lookupId st.growing j = some w)
          st removeByStep fs ⟨st, 0, 0, []⟩ ?_ (fun w hw => hw) u2 ha
        intro a i tyc s _ pa w hw
        rw [removeByStep_st] at hw
        exact pa w (removeSWT_growing_lookup a.st tyc i j w hw)
      have h := hb.symm.trans hfin
      injection h with h
      rw [h]
    | clearOp =>
      have h2 : lookupId ([] : List (Int × Segment)) j = some u2 := ha
      simp [lookupId] at h2
    | updateByOp v fs =>
      refine rangeWithFilter_inv
        (fun acc : UpdateAcc =>
          ∀ w, lookupId acc.st.growing j = some w → u.version ≤ w.version)
        st (updateStep (IncreaseVersion v)) fs ⟨st, 0⟩ ?_ ?_ u2 ha
      · intro a i tyc s hmem pa w hw
        rcases hmem with ⟨hty, hm⟩ | ⟨hty, hm⟩ <;> subst hty
        · exact pa w hw
        · have hw2 : lookupId (insertId a.st.growing i (IncreaseVersion v s).2) j = some w := hw
          by_cases hj : j = i
          · rw [hj, lookupId_insertId_self] at hw2
            injection hw2 with hw3
            have hs : lookupId st.growing i = some s :=
              lookupId_eq_of_mem_nodup st.growing i s hnd.1 hm
            rw [hj] at hb
            rw [hb] at hs
            injection hs with hs
            rw [← hw3, hs]
            exact IncreaseVersion_le v s
          · rw [lookupId_insertId_ne a.st.growing i j _ hj] at hw2
            exact pa w hw2
      · intro w hw
        rw [hb] at hw
        injection hw with hw
        rw [hw]
  | sealedSeg =>
    simp only [mapOf] at hb ha
    cases op with
    | putOp pty segs =>
      cases pty with
      | stateNone =>
        have h := hb.symm.trans ha
        injection h with h
        rw [h]
      | sealedSeg =>
        have ha2 : lookupId (putLoop segs st.sealedM).1 j = some u2 := ha
        exact putLoop_version_mono segs st.sealedM j u u2 hb ha2
      | growing =>
        have h := hb.symm.trans ha
        injection h with h
        rw [h]
    | removeOp id scope =>
      have h2 := Remove_sealed_lookup st id scope j u2 ha
      have h := hb.symm.trans h2
      injection h with h
      rw [h]
    | removeByOp fs =>
      have hfin : lookupId st.sealedM j = some u2 := by
        refine rangeWithFilter_inv
          (fun acc : RemoveByAcc =>
            ∀ w, lookupId acc.st.sealedM j = some w → lookupId st.sealedM j = some w)
          st removeByStep fs ⟨st, 0, 0, []⟩ ?_ (fun w hw => hw) u2 ha
        intro a i tyc s _ pa w hw
        rw [removeByStep_st] at hw
        exact pa w (removeSWT_sealed_lookup a.st tyc i j w hw)
      have h := hb.symm.trans hfin
      injection h with h
      rw [h]
    | clearOp =>
      have h2 : lookupId ([] : List (Int × Segment)) j = some u2 := ha
      simp [lookupId] at h2
    | updateByOp v fs =>
      refine rangeWithFilter_inv
        (fun acc : UpdateAcc =>
          ∀ w, lookupId acc.st.sealedM j = some w → u.version ≤ w.version)
        st (updateStep (IncreaseVersion v)) fs ⟨st, 0⟩ ?_ ?_ u2 ha
      · intro a i tyc s hmem pa w hw
        rcases hmem with ⟨hty, hm⟩ | ⟨hty, hm⟩ <;> subst hty
        · have hw2 : lookupId (insertId a.st.sealedM i (IncreaseVersion v s).2) j = some w := hw
          by_cases hj : j = i
          · rw [hj, lookupId_insertId_self] at hw2
            injection hw2 with hw3
            have hs : lookupId st.sealedM i = some s :=
              lookupId_eq_of_mem_nodup st.sealedM i s hnd.2 hm
            rw [hj] at hb
            rw [hb] at hs
            injection hs with hs
            rw [← hw3, hs]
            exact IncreaseVersion_le v s
          · rw [lookupId_insertId_ne a.st.sealedM i j _ hj] at hw2
            exact pa w hw2
        · exact pa w hw
      · intro w hw
        rw [hb] at hw
        injection hw with hw
        rw [hw]

/-- C5.  Version monotonicity: along any operation sequence from the
empty registry, whenever a segment is stored under an id in a table both
before and after one further operation, the stored version for that id
never decreases. -/
theorem version_monotonic (ops : List RegOp) (op : RegOp) (ty : SegmentType) (j : Int)
    (u u2 : Segment)
    (hb : lookupId (mapOf (runOps ops) ty) j = some u)
    (ha : lookupId (mapOf (applyOp (runOps ops) op) ty) j = some u2) :
    u.version ≤ u2.version :=
  applyOp_version_mono (runOps ops) op ty j u u2 (nodupReg_runOps ops) hb ha

/-- Witness for C5: a `Put` of version 3 over stored version 1. -/
theorem version_monotonic_witness :
    segG5.version ≤ ({ segG5 with version := 3 } : Segment).version :=
  version_monotonic [.putOp .growing [segG5]]
    (.putOp .growing [{ segG5 with version := 3 }]) .growing 5
    segG5 { segG5 with version := 3 } (by decide) (by decide)

end SegMgr

namespace SegMgr

/-! ### C6: hinted iteration versus naive filtering -/

/-- Modelled from the spec: the naive reading of `GetBy` — the segments
of the union of the two maps that satisfy the conjunction of all the
filters' predicates. -/
def naiveGetBy (st : RegState) (filters : List SegmentFilter) : List Segment :=
  ((st.sealedM.map Prod.snd) ++ (st.growing.map Prod.snd)).filter (filterAll filters)

/-- The last type hint of a filter list (the Go loop overwrites
`segType` on every hinted filter, so the last one wins). -/
def lastTypeHint : List SegmentFilter → Option SegmentType
  | [] => none
  | f :: rest =>
    match lastTypeHint rest with
    | some t => some t
    | none => typeHint f

/-- The concatenation of all id hints of a filter list, in order. -/
def allIdHints : List SegmentFilter → List Int
  | [] => []
  | f :: rest => ((idsHint f).getD []) ++ allIdHints rest

theorem insertIdSet_append (a xs ys : List Int) :
    insertIdSet (insertIdSet a xs) ys = insertIdSet a (xs ++ ys) := by
  unfold insertIdSet
  rw [List.foldl_append]

theorem extractHints_otherFilters (fs : List SegmentFilter) (h : HintState) :
    (extractHints fs h).otherFilters
      = h.otherFilters ++ fs.filter fun f => (typeHint f).isNone && (idsHint f).isNone := by
  induction fs generalizing h with
  | nil => simp [extractHints]
  | cons f rest ih =>
    rw [extractHints]
    cases htf : typeHint f with
    | some t =>
      rw [ih]
      have hval : ((typeHint f).isNone && (idsHint f).isNone) = false := by
        rw [htf]
        rfl
      rw [List.filter_cons_of_neg (by simp [hval])]
    | none =>
      cases hif : idsHint f with
      | some ids =>
        rw [ih]
        have hval : ((typeHint f).isNone && (idsHint f).isNone) = false := by
          rw [htf, hif]
          rfl
        rw [List.filter_cons_of_neg (by simp [hval])]
      | none =>
        rw [ih]
        have hval : ((typeHint f).isNone && (idsHint f).isNone) = true := by
          rw [htf, hif]
          rfl
        rw [List.filter_cons_of_pos (by simp [hval])]
        simp

theorem extractHints_segType (fs : List SegmentFilter) (h : HintState) :
    (extractHints fs h).segType = (lastTypeHint fs).getD h.segType := by
  induction fs generalizing h with
  | nil => rfl
  | cons f rest ih =>
    rw [extractHints, lastTypeHint]
    cases htf : typeHint f with
    | some t =>
      rw [ih]
      cases hlast : lastTypeHint rest with
      | some t2 => rfl
      | none => rfl
    | none =>
      cases hif : idsHint f with
      | some ids =>
        rw [ih]
        cases hlast : lastTypeHint rest with
        | some t2 => rfl
        | none => rfl
      | none =>
        rw [ih]
        cases hlast : lastTypeHint rest with
        | some t2 => rfl
        | none => rfl

theorem extractHints_hasSegType (fs : List SegmentFilter) (h : HintState) :
    (extractHints fs h).hasSegType
      = (h.hasSegType || fs.any fun f => (typeHint f).isSome) := by
  induction fs generalizing h with
  | nil => simp [extractHints]
  | cons f rest ih =>
    rw [extractHints]
    cases htf : typeHint f with
    | some t =>
      rw [ih]
      rw [List.any_cons, htf]
      simp
    | none =>
      cases hif : idsHint f with
      | some ids =>
        rw [ih]
        rw [List.any_cons, htf]
        simp
      | none =>
        rw [ih]
        rw [List.any_cons, htf]
        simp

theorem extractHints_hasSegIDs (fs : List SegmentFilter) (h : HintState) :
    (extractHints fs h).hasSegIDs
      = (h.hasSegIDs || fs.any fun f => (idsHint f).isSome) := by
  induction fs generalizing h with
  | nil => simp [extractHints]
  | cons f rest ih =>
    rw [extractHints]
    cases htf : typeHint f with
    | some t =>
      rw [ih]
      have : idsHint f = none := by
        cases f <;> first | rfl | cases htf
      rw [List.any_cons, this]
      simp
    | none =>
      cases hif : idsHint f with
      | some ids =>
        rw [ih]
        rw [List.any_cons, hif]
        simp
      | none =>
        rw [ih]
        rw [List.any_cons, hif]
        simp

theorem extractHints_segmentIDs (fs : List SegmentFilter) (h : HintState) :
    (extractHints fs h).segmentIDs = insertIdSet h.segmentIDs (allIdHints fs) := by
  induction fs generalizing h with
  | nil => simp [extractHints, allIdHints, insertIdSet]
  | cons f rest ih =>
    rw [extractHints, allIdHints]
    cases htf : typeHint f with
    | some t =>
      rw [ih]
      have : idsHint f = none := by
        cases f <;> first | rfl | cases htf
      rw [this]
      rfl
    | none =>
      cases hif : idsHint f with
      | some ids =>
        rw [ih]
        show insertIdSet (insertIdSet h.segmentIDs ids) (allIdHints rest)
          = insertIdSet h.segmentIDs (ids ++ allIdHints rest)
        rw [insertIdSet_append]
      | none =>
        rw [ih]
        rfl

end SegMgr

namespace SegMgr

theorem typeHint_eq_some {f : SegmentFilter} {t : SegmentType}
    (h : typeHint f = some t) : f = .withType t := by
  cases f <;> first
    | (injection h with h2; rw [h2])
    | injection h

theorem idsHint_eq_some {f : SegmentFilter} {ids : List Int}
    (h : idsHint f = some ids) : ∃ i, f = .withId i ∧ ids = [i] := by
  cases f <;> first
    | (injection h with h2; exact ⟨_, rfl, h2.symm⟩)
    | injection h

theorem lastTypeHint_of_filter_nil (fs : List SegmentFilter)
    (h : fs.filter (fun f => (typeHint f).isSome) = []) : lastTypeHint fs = none := by
  induction fs with
  | nil => rfl
  | cons f rest ih =>
    have hall := List.filter_eq_nil_iff.mp h
    have hf : ¬(typeHint f).isSome = true := hall f (List.mem_cons_self _ _)
    have hrest : rest.filter (fun f => (typeHint f).isSome) = [] :=
      List.filter_eq_nil_iff.mpr fun a ha => hall a (List.mem_cons_of_mem _ ha)
    rw [lastTypeHint, ih hrest]
    cases htf : typeHint f with
    | some t => rw [htf] at hf; cases hf rfl
    | none => rfl

theorem lastTypeHint_of_filter_single (fs : List SegmentFilter) (f0 : SegmentFilter)
    (h : fs.filter (fun f => (typeHint f).isSome) = [f0]) :
    lastTypeHint fs = typeHint f0 := by
  induction fs with
  | nil => cases h
  | cons f rest ih =>
    by_cases hf : (typeHint f).isSome = true
    · rw [@List.filter_cons_of_pos _ (fun f => (typeHint f).isSome) f rest hf] at h
      injection h with h1 h2
      rw [lastTypeHint, lastTypeHint_of_filter_nil rest h2, h1]
    · rw [@List.filter_cons_of_neg _ (fun f => (typeHint f).isSome) f rest hf] at h
      rw [lastTypeHint, ih h]
      cases hlast : typeHint f0 with
      | some t => rfl
      | none =>
        have hmem : f0 ∈ rest.filter (fun f => (typeHint f).isSome) := by
          rw [h]
          exact List.mem_singleton.mpr rfl
        have := (List.mem_filter.mp hmem).2
        rw [hlast] at this
        cases this

theorem allIdHints_of_filter_nil (fs : List SegmentFilter)
    (h : fs.filter (fun f => (idsHint f).isSome) = []) : allIdHints fs = [] := by
  induction fs with
  | nil => rfl
  | cons f rest ih =>
    have hall := List.filter_eq_nil_iff.mp h
    have hf : ¬(idsHint f).isSome = true := hall f (List.mem_cons_self _ _)
    have hrest : rest.filter (fun f => (idsHint f).isSome) = [] :=
      List.filter_eq_nil_iff.mpr fun a ha => hall a (List.mem_cons_of_mem _ ha)
    rw [allIdHints, ih hrest]
    cases hif : idsHint f with
    | some ids => rw [hif] at hf; cases hf rfl
    | none => rfl

theorem allIdHints_of_filter_single (fs : List SegmentFilter) (f0 : SegmentFilter)
    (h : fs.filter (fun f => (idsHint f).isSome) = [f0]) :
    allIdHints fs = (idsHint f0).getD [] := by
  induction fs with
  | nil => cases h
  | cons f rest ih =>
    by_cases hf : (idsHint f).isSome = true
    · rw [@List.filter_cons_of_pos _ (fun f => (idsHint f).isSome) f rest hf] at h
      injection h with h1 h2
      rw [allIdHints, allIdHints_of_filter_nil rest h2, h1]
      simp
    · rw [@List.filter_cons_of_neg _ (fun f => (idsHint f).isSome) f rest hf] at h
      rw [allIdHints, ih h]
      cases hif : idsHint f with
      | some ids => rw [hif] at hf; cases hf rfl
      | none => simp

theorem filterAll_decomposition (fs : List SegmentFilter) (s : Segment) :
    filterAll fs s = true ↔
      ((∀ f ∈ fs.filter (fun f => (typeHint f).isSome), filterPred f s = true) ∧
       (∀ f ∈ fs.filter (fun f => (idsHint f).isSome), filterPred f s = true) ∧
       filterAll (fs.filter fun f => (typeHint f).isNone && (idsHint f).isNone) s = true) := by
  unfold filterAll
  rw [List.all_eq_true, List.all_eq_true]
  constructor
  · intro h
    exact ⟨fun f hf => h f (List.mem_filter.mp hf).1,
      fun f hf => h f (List.mem_filter.mp hf).1,
      fun f hf => h f (List.mem_filter.mp hf).1⟩
  · rintro ⟨h1, h2, h3⟩ f hf
    cases htf : typeHint f with
    | some t =>
      exact h1 f (List.mem_filter.mpr ⟨hf, by rw [htf]; rfl⟩)
    | none =>
      cases hif : idsHint f with
      | some ids =>
        exact h2 f (List.mem_filter.mpr ⟨hf, by rw [hif]; rfl⟩)
      | none =>
        exact h3 f (List.mem_filter.mpr ⟨hf, by rw [htf, hif]; rfl⟩)

theorem runEntries_getBy (mf : Segment → Bool) (ty : SegmentType) :
    ∀ (m : List (Int × Segment)) (acc : List Segment),
      runEntries mf ty getByStep m acc = acc ++ (m.filter fun p => mf p.2).map Prod.snd := by
  intro m
  induction m with
  | nil => intro acc; simp [runEntries]
  | cons p rest ih =>
    intro acc
    rw [runEntries]
    by_cases hmf : mf p.2 = true
    · rw [if_pos hmf]
      rw [if_pos (show (getByStep acc p.1 ty p.2).2 = true from rfl)]
      show runEntries mf ty getByStep rest (acc ++ [p.2]) = _
      rw [ih, @List.filter_cons_of_pos _ (fun q => mf q.2) p rest hmf, List.map_cons,
        List.append_assoc]
      rfl
    · rw [if_neg hmf, ih, @List.filter_cons_of_neg _ (fun q => mf q.2) p rest hmf]

theorem mem_filterValues (m : List (Int × Segment)) (mf : Segment → Bool) (s : Segment) :
    s ∈ (m.filter fun p => mf p.2).map Prod.snd
      ↔ ((∃ i, (i, s) ∈ m) ∧ mf s = true) := by
  constructor
  · intro hm
    obtain ⟨p, hp, hps⟩ := List.mem_map.mp hm
    obtain ⟨hpm, hpf⟩ := List.mem_filter.mp hp
    refine ⟨⟨p.1, ?_⟩, ?_⟩
    · rw [show (p.1, s) = p from by rw [← hps]]
      exact hpm
    · rw [← hps]
      exact hpf
  · rintro ⟨⟨i, hm⟩, hmf⟩
    exact List.mem_map.mpr ⟨(i, s), List.mem_filter.mpr ⟨hm, hmf⟩, rfl⟩

theorem runEntries_mem (mf : Segment → Bool) (ty : SegmentType)
    (m : List (Int × Segment)) (acc : List Segment) (s : Segment) :
    s ∈ runEntries mf ty getByStep m acc
      ↔ s ∈ acc ∨ ((∃ i, (i, s) ∈ m) ∧ mf s = true) := by
  rw [runEntries_getBy, List.mem_append, mem_filterValues]

theorem memval_lookup (m : List (Int × Segment)) (i : Int) (s : Segment)
    (hnd : nodupKeys m) (hk : keyAgree m) (hm : ∃ j, (j, s) ∈ m) (hi : s.id = i) :
    lookupId m i = some s := by
  obtain ⟨j, hj⟩ := hm
  have h1 : s.id = j := hk (j, s) hj
  rw [hi] at h1
  rw [← h1] at hj
  exact lookupId_eq_of_mem_nodup m i s hnd hj

theorem runIds_single_mem (mf : Segment → Bool) (ty : SegmentType)
    (m : List (Int × Segment)) (i : Int) (acc : List Segment) (s : Segment)
    (hnd : nodupKeys m) (hk : keyAgree m) :
    s ∈ runIds mf ty getByStep m [i] acc
      ↔ s ∈ acc ∨ ((∃ j, (j, s) ∈ m) ∧ s.id = i ∧ mf s = true) := by
  rw [runIds]
  split
  next x hl =>
    have hxm : (i, x) ∈ m := mem_of_lookupId_eq_some m i x hl
    have hxi : x.id = i := hk (i, x) hxm
    by_cases hmf : mf x = true
    · rw [if_pos hmf]
      rw [if_pos (show (getByStep acc i ty x).2 = true from rfl)]
      show s ∈ runIds mf ty getByStep m [] (acc ++ [x]) ↔ _
      rw [runIds, List.mem_append, List.mem_singleton]
      constructor
      · rintro (hacc | hsx)
        · exact Or.inl hacc
        · refine Or.inr ⟨⟨i, ?_⟩, ?_, ?_⟩
          · rw [hsx]; exact hxm
          · rw [hsx]; exact hxi
          · rw [hsx]; exact hmf
      · rintro (hacc | ⟨hm, hi, hmf2⟩)
        · exact Or.inl hacc
        · right
          have := memval_lookup m i s hnd hk hm hi
          rw [hl] at this
          injection this with this
          exact this.symm
    · rw [if_neg hmf]
      show s ∈ runIds mf ty getByStep m [] acc ↔ _
      rw [runIds]
      constructor
      · exact Or.inl
      · rintro (hacc | ⟨hm, hi, hmf2⟩)
        · exact hacc
        · have := memval_lookup m i s hnd hk hm hi
          rw [hl] at this
          injection this with this
          rw [← this] at hmf2
          cases hmf hmf2
  next hl =>
    rw [runIds]
    constructor
    · exact Or.inl
    · rintro (hacc | ⟨hm, hi, hmf⟩)
      · exact hacc
      · rw [memval_lookup m i s hnd hk hm hi] at hl
        cases hl

end SegMgr

namespace SegMgr

theorem any_eq_false_of_filter_eq_nil {α : Type} (p : α → Bool) (l : List α)
    (h : l.filter p = []) : l.any p = false := by
  cases hb : l.any p with
  | false => rfl
  | true =>
    obtain ⟨x, hx, hpx⟩ := List.any_eq_true.mp hb
    exact absurd hpx (List.filter_eq_nil_iff.mp h x hx)

theorem any_eq_true_of_filter_eq_single {α : Type} (p : α → Bool) (l : List α) (f0 : α)
    (h : l.filter p = [f0]) : l.any p = true := by
  have hmem : f0 ∈ l.filter p := by
    rw [h]
    exact List.mem_singleton.mpr rfl
  obtain ⟨h1, h2⟩ := List.mem_filter.mp hmem
  exact List.any_eq_true.mpr ⟨f0, h1, h2⟩

theorem mem_of_filter_eq_single {α : Type} (p : α → Bool) (l : List α) (f0 : α)
    (h : l.filter p = [f0]) : f0 ∈ l ∧ p f0 = true := by
  have hmem : f0 ∈ l.filter p := by
    rw [h]
    exact List.mem_singleton.mpr rfl
  exact List.mem_filter.mp hmem

theorem candidatesOf_of_none (st : RegState) (h : HintState)
    (h1 : h.segType = .stateNone) (h2 : h.hasSegType = false) :
    candidatesOf st h = [(.sealedSeg, st.sealedM), (.growing, st.growing)] := by
  unfold candidatesOf
  rw [h1]
  show (if h.hasSegType then []
    else [(SegmentType.sealedSeg, st.sealedM), (SegmentType.growing, st.growing)]) = _
  rw [h2]
  rfl

theorem candidatesOf_of_none_hinted (st : RegState) (h : HintState)
    (h1 : h.segType = .stateNone) (h2 : h.hasSegType = true) :
    candidatesOf st h = [] := by
  unfold candidatesOf
  rw [h1]
  show (if h.hasSegType then []
    else [(SegmentType.sealedSeg, st.sealedM), (SegmentType.growing, st.growing)]) = _
  rw [h2]
  rfl

theorem candidatesOf_of_sealed (st : RegState) (h : HintState)
    (h1 : h.segType = .sealedSeg) : candidatesOf st h = [(.sealedSeg, st.sealedM)] := by
  unfold candidatesOf
  rw [h1]

theorem candidatesOf_of_growing (st : RegState) (h : HintState)
    (h1 : h.segType = .growing) : candidatesOf st h = [(.growing, st.growing)] := by
  unfold candidatesOf
  rw [h1]

theorem rangeCore_empty {A : Type} (st : RegState) (h : HintState)
    (process : A → Int → SegmentType → Segment → A × Bool) (acc : A)
    (hc : candidatesOf st h = []) : rangeCore st h process acc = acc := by
  unfold rangeCore
  rw [hc]
  rfl

theorem rangeCore_pair_scan {A : Type} (st : RegState) (h : HintState)
    (process : A → Int → SegmentType → Segment → A × Bool) (acc : A)
    (hc : candidatesOf st h = [(.sealedSeg, st.sealedM), (.growing, st.growing)])
    (hids : h.hasSegIDs = false) :
    rangeCore st h process acc
      = runEntries (mergedOf h) .growing process st.growing
          (runEntries (mergedOf h) .sealedSeg process st.sealedM acc) := by
  unfold rangeCore
  rw [hc, List.foldl_cons, List.foldl_cons, List.foldl_nil]
  simp only [hids, Bool.false_eq_true, if_false]

theorem rangeCore_single_scan {A : Type} (st : RegState) (h : HintState)
    (process : A → Int → SegmentType → Segment → A × Bool) (acc : A)
    (ty : SegmentType) (m : List (Int × Segment))
    (hc : candidatesOf st h = [(ty, m)]) (hids : h.hasSegIDs = false) :
    rangeCore st h process acc = runEntries (mergedOf h) ty process m acc := by
  unfold rangeCore
  rw [hc, List.foldl_cons, List.foldl_nil]
  simp only [hids, Bool.false_eq_true, if_false]

theorem rangeCore_pair_ids {A : Type} (st : RegState) (h : HintState)
    (process : A → Int → SegmentType → Segment → A × Bool) (acc : A)
    (hc : candidatesOf st h = [(.sealedSeg, st.sealedM), (.growing, st.growing)])
    (hids : h.hasSegIDs = true) :
    rangeCore st h process acc
      = runIds (mergedOf h) .growing process st.growing h.segmentIDs
          (runIds (mergedOf h) .sealedSeg process st.sealedM h.segmentIDs acc) := by
  unfold rangeCore
  rw [hc, List.foldl_cons, List.foldl_cons, List.foldl_nil]
  simp only [hids, if_true]

theorem rangeCore_single_ids {A : Type} (st : RegState) (h : HintState)
    (process : A → Int → SegmentType → Segment → A × Bool) (acc : A)
    (ty : SegmentType) (m : List (Int × Segment))
    (hc : candidatesOf st h = [(ty, m)]) (hids : h.hasSegIDs = true) :
    rangeCore st h process acc = runIds (mergedOf h) ty process m h.segmentIDs acc := by
  unfold rangeCore
  rw [hc, List.foldl_cons, List.foldl_nil]
  simp only [hids, if_true]

end SegMgr

namespace SegMgr

theorem mem_values_exists (s : Segment) (m : List (Int × Segment)) :
    s ∈ m.map Prod.snd ↔ ∃ i, (i, s) ∈ m := by
  rw [List.mem_map]
  constructor
  · rintro ⟨p, hp, hps⟩
    refine ⟨p.1, ?_⟩
    rw [show (p.1, s) = p from by rw [← hps]]
    exact hp
  · rintro ⟨i, hi⟩
    exact ⟨(i, s), hi, rfl⟩

theorem naiveGetBy_mem (st : RegState) (filters : List SegmentFilter) (s : Segment) :
    s ∈ naiveGetBy st filters ↔
      ((∃ i, (i, s) ∈ st.sealedM) ∨ (∃ i, (i, s) ∈ st.growing))
        ∧ filterAll filters s = true := by
  unfold naiveGetBy
  rw [List.mem_filter, List.mem_append, mem_values_exists, mem_values_exists]

theorem mergedOf_eq (filters : List SegmentFilter) (s : Segment) :
    mergedOf (extractHints filters initHints) s
      = filterAll (filters.filter fun f => (typeHint f).isNone && (idsHint f).isNone) s := by
  unfold mergedOf filterAll
  rw [extractHints_otherFilters]
  rfl

theorem getBy_case_plain (st : RegState) (filters : List SegmentFilter) (s : Segment)
    (hTF : filters.filter (fun f => (typeHint f).isSome) = [])
    (hIF : filters.filter (fun f => (idsHint f).isSome) = []) :
    (s ∈ GetBy st filters ↔ s ∈ naiveGetBy st filters) := by
  have hSegTy : (extractHints filters initHints).segType = SegmentType.stateNone := by
    rw [extractHints_segType, lastTypeHint_of_filter_nil filters hTF]
    rfl
  have hHasTy : (extractHints filters initHints).hasSegType = false := by
    rw [extractHints_hasSegType, any_eq_false_of_filter_eq_nil _ filters hTF]
    rfl
  have hHasIds : (extractHints filters initHints).hasSegIDs = false := by
    rw [extractHints_hasSegIDs, any_eq_false_of_filter_eq_nil _ filters hIF]
    rfl
  have hcand := candidatesOf_of_none st _ hSegTy hHasTy
  have hrange := rangeCore_pair_scan st (extractHints filters initHints) getByStep [] hcand hHasIds
  have hmem : s ∈ GetBy st filters ↔
      ((∃ i, (i, s) ∈ st.sealedM) ∨ (∃ i, (i, s) ∈ st.growing))
        ∧ mergedOf (extractHints filters initHints) s = true := by
    show s ∈ rangeCore st (extractHints filters initHints) getByStep [] ↔ _
    rw [hrange, runEntries_mem, runEntries_mem]
    constructor
    · rintro ((hnil | ⟨hm, hmf⟩) | ⟨hm, hmf⟩)
      · cases hnil
      · exact ⟨Or.inl hm, hmf⟩
      · exact ⟨Or.inr hm, hmf⟩
    · rintro ⟨hm | hm, hmf⟩
      · exact Or.inl (Or.inr ⟨hm, hmf⟩)
      · exact Or.inr ⟨hm, hmf⟩
  have hfa : filterAll filters s = true
      ↔ mergedOf (extractHints filters initHints) s = true := by
    rw [filterAll_decomposition, mergedOf_eq]
    constructor
    · rintro ⟨h1, h2, h3⟩
      exact h3
    · intro h3
      refine ⟨?_, ?_, h3⟩
      · rw [hTF]
        intro f hf
        cases hf
      · rw [hIF]
        intro f hf
        cases hf
  rw [hmem, naiveGetBy_mem, hfa]

end SegMgr

namespace SegMgr

theorem getBy_case_type (st : RegState) (filters : List SegmentFilter) (s : Segment)
    (t : SegmentType)
    (htyS : ∀ p ∈ st.sealedM, p.2.segType = SegmentType.sealedSeg)
    (htyG : ∀ p ∈ st.growing, p.2.segType = SegmentType.growing)
    (hTF : filters.filter (fun f => (typeHint f).isSome) = [SegmentFilter.withType t])
    (hIF : filters.filter (fun f => (idsHint f).isSome) = []) :
    (s ∈ GetBy st filters ↔ s ∈ naiveGetBy st filters) := by
  have hSegTy : (extractHints filters initHints).segType = t := by
    rw [extractHints_segType, lastTypeHint_of_filter_single filters _ hTF]
    rfl
  have hHasTy : (extractHints filters initHints).hasSegType = true := by
    rw [extractHints_hasSegType, any_eq_true_of_filter_eq_single _ filters _ hTF]
    rfl
  have hHasIds : (extractHints filters initHints).hasSegIDs = false := by
    rw [extractHints_hasSegIDs, any_eq_false_of_filter_eq_nil _ filters hIF]
    rfl
  have hfa : filterAll filters s = true ↔
      ((s.segType == t) = true
        ∧ mergedOf (extractHints filters initHints) s = true) := by
    rw [filterAll_decomposition, mergedOf_eq]
    constructor
    · rintro ⟨h1, h2, h3⟩
      exact ⟨h1 (SegmentFilter.withType t) (by rw [hTF]; exact List.mem_singleton.mpr rfl), h3⟩
    · rintro ⟨h1, h3⟩
      refine ⟨?_, ?_, h3⟩
      · rw [hTF]
        intro f hf
        rw [List.mem_singleton.mp hf]
        exact h1
      · rw [hIF]
        intro f hf
        cases hf
  cases t with
  | stateNone =>
    have hcand := candidatesOf_of_none_hinted st _ hSegTy hHasTy
    have hrange := rangeCore_empty st _ getByStep [] hcand
    have hmem : s ∈ GetBy st filters ↔ False := by
      show s ∈ rangeCore st (extractHints filters initHints) getByStep [] ↔ False
      rw [hrange]
      constructor
      · intro hh
        cases hh
      · intro hh
        cases hh
    rw [hmem, naiveGetBy_mem, hfa]
    constructor
    · intro hh
      cases hh
    · rintro ⟨hm | hm, hbeq, hmf⟩
      · obtain ⟨i, hi⟩ := hm
        rw [htyS (i, s) hi] at hbeq
        exact absurd hbeq (by decide)
      · obtain ⟨i, hi⟩ := hm
        rw [htyG (i, s) hi] at hbeq
        exact absurd hbeq (by decide)
  | sealedSeg =>
    have hcand := candidatesOf_of_sealed st _ hSegTy
    have hrange := rangeCore_single_scan st _ getByStep [] .sealedSeg st.sealedM hcand hHasIds
    have hmem : s ∈ GetBy st filters ↔
        (∃ i, (i, s) ∈ st.sealedM)
          ∧ mergedOf (extractHints filters initHints) s = true := by
      show s ∈ rangeCore st (extractHints filters initHints) getByStep [] ↔ _
      rw [hrange, runEntries_mem]
      constructor
      · rintro (hnil | hpart)
        · cases hnil
        · exact hpart
      · exact Or.inr
    rw [hmem, naiveGetBy_mem, hfa]
    constructor
    · rintro ⟨hm, hmf⟩
      obtain ⟨i, hi⟩ := hm
      refine ⟨Or.inl ⟨i, hi⟩, ?_, hmf⟩
      rw [htyS (i, s) hi]
      rfl
    · rintro ⟨hm | hm, hbeq, hmf⟩
      · exact ⟨hm, hmf⟩
      · obtain ⟨i, hi⟩ := hm
        rw [htyG (i, s) hi] at hbeq
        exact absurd hbeq (by decide)
  | growing =>
    have hcand := candidatesOf_of_growing st _ hSegTy
    have hrange := rangeCore_single_scan st _ getByStep [] .growing st.growing hcand hHasIds
    have hmem : s ∈ GetBy st filters ↔
        (∃ i, (i, s) ∈ st.growing)
          ∧ mergedOf (extractHints filters initHints) s = true := by
      show s ∈ rangeCore st (extractHints filters initHints) getByStep [] ↔ _
      rw [hrange, runEntries_mem]
      constructor
      · rintro (hnil | hpart)
        · cases hnil
        · exact hpart
      · exact Or.inr
    rw [hmem, naiveGetBy_mem, hfa]
    constructor
    · rintro ⟨hm, hmf⟩
      obtain ⟨i, hi⟩ := hm
      refine ⟨Or.inr ⟨i, hi⟩, ?_, hmf⟩
      rw [htyG (i, s) hi]
      rfl
    · rintro ⟨hm | hm, hbeq, hmf⟩
      · obtain ⟨i, hi⟩ := hm
        rw [htyS (i, s) hi] at hbeq
        exact absurd hbeq (by decide)
      · exact ⟨hm, hmf⟩

end SegMgr

namespace SegMgr

theorem getBy_case_id (st : RegState) (filters : List SegmentFilter) (s : Segment)
    (i : Int)
    (hndS : nodupKeys st.sealedM) (hndG : nodupKeys st.growing)
    (hkS : keyAgree st.sealedM) (hkG : keyAgree st.growing)
    (hTF : filters.filter (fun f => (typeHint f).isSome) = [])
    (hIF : filters.filter (fun f => (idsHint f).isSome) = [SegmentFilter.withId i]) :
    (s ∈ GetBy st filters ↔ s ∈ naiveGetBy st filters) := by
  have hSegTy : (extractHints filters initHints).segType = SegmentType.stateNone := by
    rw [extractHints_segType, lastTypeHint_of_filter_nil filters hTF]
    rfl
  have hHasTy : (extractHints filters initHints).hasSegType = false := by
    rw [extractHints_hasSegType, any_eq_false_of_filter_eq_nil _ filters hTF]
    rfl
  have hHasIds : (extractHints filters initHints).hasSegIDs = true := by
    rw [extractHints_hasSegIDs, any_eq_true_of_filter_eq_single _ filters _ hIF]
    rfl
  have hIds : (extractHints filters initHints).segmentIDs = [i] := by
    rw [extractHints_segmentIDs, allIdHints_of_filter_single filters _ hIF]
    rfl
  have hcand := candidatesOf_of_none st _ hSegTy hHasTy
  have hrange := rangeCore_pair_ids st (extractHints filters initHints) getByStep [] hcand hHasIds
  have hmem : s ∈ GetBy st filters ↔
      (((∃ j, (j, s) ∈ st.sealedM) ∧ s.id = i
          ∧ mergedOf (extractHints filters initHints) s = true)
        ∨ ((∃ j, (j, s) ∈ st.growing) ∧ s.id = i
          ∧ mergedOf (extractHints filters initHints) s = true)) := by
    show s ∈ rangeCore st (extractHints filters initHints) getByStep [] ↔ _
    rw [hrange, hIds, runIds_single_mem _ _ _ _ _ _ hndG hkG,
      runIds_single_mem _ _ _ _ _ _ hndS hkS]
    constructor
    · rintro ((hnil | hseal) | hgrow)
      · cases hnil
      · exact Or.inl hseal
      · exact Or.inr hgrow
    · rintro (hseal | hgrow)
      · exact Or.inl (Or.inr hseal)
      · exact Or.inr hgrow
  have hfa : filterAll filters s = true ↔
      ((s.id == i) = true ∧ mergedOf (extractHints filters initHints) s = true) := by
    rw [filterAll_decomposition, mergedOf_eq]
    constructor
    · rintro ⟨h1, h2, h3⟩
      exact ⟨h2 (SegmentFilter.withId i) (by rw [hIF]; exact List.mem_singleton.mpr rfl), h3⟩
    · rintro ⟨h1, h3⟩
      refine ⟨?_, ?_, h3⟩
      · rw [hTF]
        intro f hf
        cases hf
      · rw [hIF]
        intro f hf
        rw [List.mem_singleton.mp hf]
        exact h1
  rw [hmem, naiveGetBy_mem, hfa]
  constructor
  · rintro (⟨hm, hi, hmf⟩ | ⟨hm, hi, hmf⟩)
    · exact ⟨Or.inl hm, beq_iff_eq.mpr hi, hmf⟩
    · exact ⟨Or.inr hm, beq_iff_eq.mpr hi, hmf⟩
  · rintro ⟨hm | hm, hbeq, hmf⟩
    · exact Or.inl ⟨hm, beq_iff_eq.mp hbeq, hmf⟩
    · exact Or.inr ⟨hm, beq_iff_eq.mp hbeq, hmf⟩

theorem getBy_case_type_id (st : RegState) (filters : List SegmentFilter) (s : Segment)
    (t : SegmentType) (i : Int)
    (hndS : nodupKeys st.sealedM) (hndG : nodupKeys st.growing)
    (hkS : keyAgree st.sealedM) (hkG : keyAgree st.growing)
    (htyS : ∀ p ∈ st.sealedM, p.2.segType = SegmentType.sealedSeg)
    (htyG : ∀ p ∈ st.growing, p.2.segType = SegmentType.growing)
    (hTF : filters.filter (fun f => (typeHint f).isSome) = [SegmentFilter.withType t])
    (hIF : filters.filter (fun f => (idsHint f).isSome) = [SegmentFilter.withId i]) :
    (s ∈ GetBy st filters ↔ s ∈ naiveGetBy st filters) := by
  have hSegTy : (extractHints filters initHints).segType = t := by
    rw [extractHints_segType, lastTypeHint_of_filter_single filters _ hTF]
    rfl
  have hHasTy : (extractHints filters initHints).hasSegType = true := by
    rw [extractHints_hasSegType, any_eq_true_of_filter_eq_single _ filters _ hTF]
    rfl
  have hHasIds : (extractHints filters initHints).hasSegIDs = true := by
    rw [extractHints_hasSegIDs, any_eq_true_of_filter_eq_single _ filters _ hIF]
    rfl
  have hIds : (extractHints filters initHints).segmentIDs = [i] := by
    rw [extractHints_segmentIDs, allIdHints_of_filter_single filters _ hIF]
    rfl
  have hfa : filterAll filters s = true ↔
      ((s.segType == t) = true ∧ (s.id == i) = true
        ∧ mergedOf (extractHints filters initHints) s = true) := by
    rw [filterAll_decomposition, mergedOf_eq]
    constructor
    · rintro ⟨h1, h2, h3⟩
      exact ⟨h1 (SegmentFilter.withType t) (by rw [hTF]; exact List.mem_singleton.mpr rfl),
        h2 (SegmentFilter.withId i) (by rw [hIF]; exact List.mem_singleton.mpr rfl), h3⟩
    · rintro ⟨h1, h2, h3⟩
      refine ⟨?_, ?_, h3⟩
      · rw [hTF]
        intro f hf
        rw [List.mem_singleton.mp hf]
        exact h1
      · rw [hIF]
        intro f hf
        rw [List.mem_singleton.mp hf]
        exact h2
  cases t with
  | stateNone =>
    have hcand := candidatesOf_of_none_hinted st _ hSegTy hHasTy
    have hrange := rangeCore_empty st _ getByStep [] hcand
    have hmem : s ∈ GetBy st filters ↔ False := by
      show s ∈ rangeCore st (extractHints filters initHints) getByStep [] ↔ False
      rw [hrange]
      constructor
      · intro hh
        cases hh
      · intro hh
        cases hh
    rw [hmem, naiveGetBy_mem, hfa]
    constructor
    · intro hh
      cases hh
    · rintro ⟨hm | hm, hbeq, _, _⟩
      · obtain ⟨j, hj⟩ := hm
        rw [htyS (j, s) hj] at hbeq
        exact absurd hbeq (by decide)
      · obtain ⟨j, hj⟩ := hm
        rw [htyG (j, s) hj] at hbeq
        exact absurd hbeq (by decide)
  | sealedSeg =>
    have hcand := candidatesOf_of_sealed st _ hSegTy
    have hrange := rangeCore_single_ids st _ getByStep [] .sealedSeg st.sealedM hcand hHasIds
    have hmem : s ∈ GetBy st filters ↔
        ((∃ j, (j, s) ∈ st.sealedM) ∧ s.id = i
          ∧ mergedOf (extractHints filters initHints) s = true) := by
      show s ∈ rangeCore st (extractHints filters initHints) getByStep [] ↔ _
      rw [hrange, hIds, runIds_single_mem _ _ _ _ _ _ hndS hkS]
      constructor
      · rintro (hnil | hseal)
        · cases hnil
        · exact hseal
      · exact Or.inr
    rw [hmem, naiveGetBy_mem, hfa]
    constructor
    · rintro ⟨hm, hi, hmf⟩
      obtain ⟨j, hj⟩ := hm
      refine ⟨Or.inl ⟨j, hj⟩, ?_, beq_iff_eq.mpr hi, hmf⟩
      rw [htyS (j, s) hj]
      rfl
    · rintro ⟨hm | hm, hbeq, hid, hmf⟩
      · exact ⟨hm, beq_iff_eq.mp hid, hmf⟩
      · obtain ⟨j, hj⟩ := hm
        rw [htyG (j, s) hj] at hbeq
        exact absurd hbeq (by decide)
  | growing =>
    have hcand := candidatesOf_of_growing st _ hSegTy
    have hrange := rangeCore_single_ids st _ getByStep [] .growing st.growing hcand hHasIds
    have hmem : s ∈ GetBy st filters ↔
        ((∃ j, (j, s) ∈ st.growing) ∧ s.id = i
          ∧ mergedOf (extractHints filters initHints) s = true) := by
      show s ∈ rangeCore st (extractHints filters initHints) getByStep [] ↔ _
      rw [hrange, hIds, runIds_single_mem _ _ _ _ _ _ hndG hkG]
      constructor
      · rintro (hnil | hgrow)
        · cases hnil
        · exact hgrow
      · exact Or.inr
    rw [hmem, naiveGetBy_mem, hfa]
    constructor
    · rintro ⟨hm, hi, hmf⟩
      obtain ⟨j, hj⟩ := hm
      refine ⟨Or.inr ⟨j, hj⟩, ?_, beq_iff_eq.mpr hi, hmf⟩
      rw [htyG (j, s) hj]
      rfl
    · rintro ⟨hm | hm, hbeq, hid, hmf⟩
      · obtain ⟨j, hj⟩ := hm
        rw [htyS (j, s) hj] at hbeq
        exact absurd hbeq (by decide)
      · exact ⟨hm, beq_iff_eq.mp hid, hmf⟩

end SegMgr

namespace SegMgr

/-- C6 (counterexample).  Two id filters: the hint path takes the UNION of
the id hints and looks both up, while conjunctive filtering is empty, so
hinted iteration and naive filtering disagree. -/
theorem getBy_hint_cex :
    GetBy ⟨[], [(1, segA)]⟩ [.withId 1, .withId 2] = [segA] ∧
    naiveGetBy ⟨[], [(1, segA)]⟩ [.withId 1, .withId 2] = [] := ⟨rfl, rfl⟩

/-- C6 (amended).  For a well-keyed registry state (unique keys, key =
stored id, types agree with the table) and a filter list containing at
most one `WithType` filter and at most one `WithID` filter, `GetBy`
returns exactly the segments of the union of the two tables that satisfy
the conjunction of all the filters' predicates. -/
theorem getBy_hinted_equiv_naive (st : RegState) (filters : List SegmentFilter)
    (hndG : nodupKeys st.growing) (hndS : nodupKeys st.sealedM)
    (hkG : keyAgree st.growing) (hkS : keyAgree st.sealedM)
    (htyG : ∀ p ∈ st.growing, p.2.segType = SegmentType.growing)
    (htyS : ∀ p ∈ st.sealedM, p.2.segType = SegmentType.sealedSeg)
    (hT : (filters.filter fun f => (typeHint f).isSome).length ≤ 1)
    (hI : (filters.filter fun f => (idsHint f).isSome).length ≤ 1)
    (s : Segment) :
    s ∈ GetBy st filters ↔ s ∈ naiveGetBy st filters := by
  cases hTF : filters.filter (fun f => (typeHint f).isSome) with
  | nil =>
    cases hIF : filters.filter (fun f => (idsHint f).isSome) with
    | nil => exact getBy_case_plain st filters s hTF hIF
    | cons fI iRest =>
      have hiRest : iRest = [] := by
        rw [hIF] at hI
        simp only [List.length_cons] at hI
        have h0 : iRest.length = 0 := by omega
        exact List.length_eq_zero.mp h0
      rw [hiRest] at hIF
      have hfI := mem_of_filter_eq_single _ filters fI hIF
      obtain ⟨idsv, hidsv⟩ := Option.isSome_iff_exists.mp hfI.2
      obtain ⟨i, hfIw, _⟩ := idsHint_eq_some hidsv
      rw [hfIw] at hIF
      exact getBy_case_id st filters s i hndS hndG hkS hkG hTF hIF
  | cons fT tRest =>
    have htRest : tRest = [] := by
      rw [hTF] at hT
      simp only [List.length_cons] at hT
      have h0 : tRest.length = 0 := by omega
      exact List.length_eq_zero.mp h0
    rw [htRest] at hTF
    have hfT := mem_of_filter_eq_single _ filters fT hTF
    obtain ⟨t, htv⟩ := Option.isSome_iff_exists.mp hfT.2
    have hfTw := typeHint_eq_some htv
    rw [hfTw] at hTF
    cases hIF : filters.filter (fun f => (idsHint f).isSome) with
    | nil => exact getBy_case_type st filters s t htyS htyG hTF hIF
    | cons fI iRest =>
      have hiRest : iRest = [] := by
        rw [hIF] at hI
        simp only [List.length_cons] at hI
        have h0 : iRest.length = 0 := by omega
        exact List.length_eq_zero.mp h0
      rw [hiRest] at hIF
      have hfI := mem_of_filter_eq_single _ filters fI hIF
      obtain ⟨idsv, hidsv⟩ := Option.isSome_iff_exists.mp hfI.2
      obtain ⟨i, hfIw, _⟩ := idsHint_eq_some hidsv
      rw [hfIw] at hIF
      exact getBy_case_type_id st filters s t i hndS hndG hkS hkG htyS htyG hTF hIF

/-- Witness for C6: one sealed entry, one type filter plus one id
filter. -/
theorem getBy_hinted_equiv_naive_witness :
    segA ∈ GetBy ⟨[], [(1, segA)]⟩ [.withType .sealedSeg, .withId 1]
      ↔ segA ∈ naiveGetBy ⟨[], [(1, segA)]⟩ [.withType .sealedSeg, .withId 1] :=
  getBy_hinted_equiv_naive ⟨[], [(1, segA)]⟩ [.withType .sealedSeg, .withId 1]
    (by unfold nodupKeys; decide) (by unfold nodupKeys; decide)
    (by unfold keyAgree; decide) (by unfold keyAgree; decide)
    (by decide) (by decide) (by decide) (by decide) segA

end SegMgr
